import Mathlib

set_option maxHeartbeats 1000000

/-!
Verification development for the broker overlay routing core.

The development shallowly embeds three source components:

* `alm::multipath` (recursive sorted tree for source routing),
* `alm::peer` (routing table queries, filter propagation, publication
  forwarding), and
* `detail::core_policy` (stream distribution policy with per-peer blocking).

Peer identifiers and communication handles are modelled as `Nat`; the
default-constructed "empty/invalid" value of the source maps to `0`.
Machine `uint16_t` arithmetic is modelled with explicit `% 65536`.
-/

namespace BrokerSpec

/-! ## Association-list helpers

`std::map` / `std::unordered_map` operations used by the source are modelled
on association lists.  `aupdate` is `m[k] = v` (replace the entry in place if
the key exists, otherwise add it); `aerase` is `m.erase(k)`. -/

def aupdate {α : Type} : List (Nat × α) → Nat → α → List (Nat × α)
  | [], k, v => [(k, v)]
  | (k', v') :: rest, k, v =>
    if k' = k then (k, v) :: rest else (k', v') :: aupdate rest k v

def aerase {α : Type} (m : List (Nat × α)) (k : Nat) : List (Nat × α) :=
  m.filter (fun kv => !(kv.1 == k))

theorem aupdate_lookup {α : Type} (m : List (Nat × α)) (k : Nat) (v : α) :
    List.lookup k (aupdate m k v) = some v := by
  induction m with
  | nil => simp [aupdate, List.lookup]
  | cons kv rest ih =>
    obtain ⟨k1, v1⟩ := kv
    by_cases h : k1 = k
    · simp [aupdate, h, List.lookup]
    · have hne : (k == k1) = false := by
        simp only [beq_eq_false_iff_ne]
        exact fun hh => h hh.symm
      simp [aupdate, h, List.lookup, hne, ih]

theorem aupdate_lookup_ne {α : Type} (m : List (Nat × α)) (k k' : Nat) (v : α)
    (h : k' ≠ k) : List.lookup k' (aupdate m k v) = List.lookup k' m := by
  induction m with
  | nil =>
    have hne : (k' == k) = false := beq_eq_false_iff_ne.mpr h
    simp [aupdate, List.lookup, hne]
  | cons kv rest ih =>
    obtain ⟨k1, v1⟩ := kv
    by_cases hk : k1 = k
    · subst hk
      have hne : (k' == k1) = false := beq_eq_false_iff_ne.mpr h
      simp [aupdate, List.lookup, hne]
    · by_cases hk' : k' = k1
      · simp [aupdate, hk, List.lookup, hk']
      · have hne : (k' == k1) = false := beq_eq_false_iff_ne.mpr hk'
        simp [aupdate, hk, List.lookup, hne, ih]

/-! ## Multipath

Shallow embedding of `broker::alm::multipath<PeerId>` with `PeerId := Nat`.
The hand-rolled contiguous child buffer of the source is modelled as a
`List`; logical children are always the first `size_` slots, which is what
the list represents.  `block_size`, capacity bookkeeping and move mechanics
have no observable effect on the logical tree and are not modelled, except
in the copy-assignment model (`copyAssign`) where slot reuse is observable
and is modelled by a reclaimed-slot pool. -/

inductive Multipath : Type where
  | node (id : Nat) (children : List Multipath)
deriving Inhabited

def Multipath.id : Multipath → Nat
  | .node i _ => i

def Multipath.children : Multipath → List Multipath
  | .node _ cs => cs

/- Structural equality, mirroring `multipath::equals`: same id and pairwise
equal children in order (`std::equal` with two ranges also compares sizes). -/
mutual

def Multipath.equals : Multipath → Multipath → Bool
  | .node i cs, .node j ds => (i == j) && equalsForest cs ds

def equalsForest : List Multipath → List Multipath → Bool
  | [], [] => true
  | a :: as, b :: bs => a.equals b && equalsForest as bs
  | _, _ => false

end

/-- The iterator-pair constructor `multipath(first, last)` (with
`first != last` as precondition): a linear chain `first :: rest`. -/
def mkChain : Nat → List Nat → Multipath
  | x, [] => .node x []
  | x, y :: r => .node x [mkChain y r]

/-- `from_linear(seq)` for a non-empty `seq = x :: xs` (the iterator-pair
constructor builds the same linear chain by repeated `emplace_node` into the
child just created). -/
def fromLinear (x : Nat) (xs : List Nat) : Multipath :=
  mkChain x xs

/-- `emplace_node(id)` on a children list: ordered search via `lower_bound`
(the children are kept sorted), then append at the end, keep the existing
child, or insert in sorted position (`insert_at`).  The slot written by
`append`/`insert_at` holds a default-constructed node, hence no children. -/
def emplaceList : List Multipath → Nat → List Multipath
  | [], y => [Multipath.node y []]
  | c :: cs, y =>
    if c.id < y then c :: emplaceList cs y
    else if c.id = y then c :: cs
    else Multipath.node y [] :: c :: cs

/-- The recursion shared by `splice` and `splice_cont`: emplace the head of
the remaining linear path among `cs`, then descend into that child with the
tail.  A child found by the ordered search is descended into; an absent
child is created (empty) and then filled by the continued descent. -/
def spliceList : List Nat → List Multipath → List Multipath
  | [], cs => cs
  | y :: r, [] => [mkChain y r]
  | y :: r, c :: cs =>
    if c.id < y then c :: spliceList (y :: r) cs
    else if c.id = y then
      (if r = [] then c else Multipath.node c.id (spliceList r c.children)) :: cs
    else mkChain y r :: c :: cs
termination_by p cs => (p.length, sizeOf cs)

/-- `multipath::splice(first, last)`: empty path is a no-op returning `true`;
a path whose head differs from this node's id returns `false` and leaves the
tree unchanged; otherwise the tail is spliced below this node. -/
def Multipath.splice (t : Multipath) (q : List Nat) : Multipath × Bool :=
  match q with
  | [] => (t, true)
  | x :: rest =>
    if x ≠ t.id then (t, false)
    else
      match rest with
      | [] => (t, true)
      | _ :: _ => (Multipath.node t.id (spliceList rest t.children), true)

/-- `emplace_node` invoked through a chain of child pointers: `p` is the id
path leading from the root to the node whose `emplace_node(y)` is called
(callers obtain such pointers from previous `emplace_node` results).  A step
of the path that does not exist leaves the tree unchanged. -/
def emplaceAt : Multipath → List Nat → Nat → Multipath
  | t, [], y => .node t.id (emplaceList t.children y)
  | t, p0 :: ps, y =>
    .node t.id (t.children.map (fun c => if c.id = p0 then emplaceAt c ps y else c))

/- The documented invariant: the children sequence of every node is strictly
increasing by id. -/
mutual

def sortedTree : Multipath → Bool
  | .node _ cs => idsIncr cs && sortedForest cs

def sortedForest : List Multipath → Bool
  | [] => true
  | c :: cs => sortedTree c && sortedForest cs

def idsIncr : List Multipath → Bool
  | [] => true
  | [_] => true
  | a :: b :: t => (decide (a.id < b.id)) && idsIncr (b :: t)

end

/-- Trees obtainable from the public construction surface named by the spec:
`new(id)`, `from_linear`, `emplace_node` (through any child pointer) and
`splice`. -/
inductive Built : Multipath → Prop where
  | new (x : Nat) : Built (.node x [])
  | ofLinear (x : Nat) (xs : List Nat) : Built (fromLinear x xs)
  | emplace (t : Multipath) (p : List Nat) (y : Nat) :
      Built t → Built (emplaceAt t p y)
  | spliced (t : Multipath) (q : List Nat) :
      Built t → Built ((t.splice q).1)

/-! ### Basic multipath lemmas -/

theorem mkChain_id (y : Nat) (r : List Nat) : (mkChain y r).id = y := by
  cases r <;> rfl

mutual

theorem equals_refl : ∀ t : Multipath, t.equals t = true
  | .node i cs => by
    simp [Multipath.equals, equalsForest_refl cs]

theorem equalsForest_refl : ∀ cs : List Multipath, equalsForest cs cs = true
  | [] => by simp [equalsForest]
  | c :: cs => by
    simp [equalsForest, equals_refl c, equalsForest_refl cs]

end

theorem equals_of_eq {a b : Multipath} (h : a = b) : a.equals b = true :=
  h ▸ equals_refl a

theorem spliceList_nil_left (cs : List Multipath) : spliceList [] cs = cs := by
  simp [spliceList]

theorem spliceList_nil_right (y : Nat) (r : List Nat) :
    spliceList (y :: r) [] = [mkChain y r] := by
  simp [spliceList]

theorem spliceList_cons (y : Nat) (r : List Nat) (c : Multipath)
    (cs : List Multipath) :
    spliceList (y :: r) (c :: cs) =
      if c.id < y then c :: spliceList (y :: r) cs
      else if c.id = y then
        (if r = [] then c else Multipath.node c.id (spliceList r c.children)) :: cs
      else mkChain y r :: c :: cs := by
  simp only [spliceList]

/-- Splicing the linear path that built a chain back into it is a no-op. -/
theorem spliceList_chain (z : Nat) (r : List Nat) :
    spliceList (z :: r) [mkChain z r] = [mkChain z r] := by
  induction r generalizing z with
  | nil =>
    rw [spliceList_cons, mkChain_id, if_neg (Nat.lt_irrefl z), if_pos rfl,
      if_pos rfl]
  | cons w r' ih =>
    rw [spliceList_cons, mkChain_id, if_neg (Nat.lt_irrefl z), if_pos rfl,
      if_neg (List.cons_ne_nil w r')]
    show Multipath.node (mkChain z (w :: r')).id
        (spliceList (w :: r') [mkChain w r']) :: [] = [mkChain z (w :: r')]
    rw [ih, mkChain_id]
    rfl

/-- Splicing the same linear path twice into a children list equals splicing
it once. -/
theorem spliceList_idem (p : List Nat) :
    ∀ cs, spliceList p (spliceList p cs) = spliceList p cs := by
  induction p with
  | nil => intro cs; rw [spliceList_nil_left, spliceList_nil_left]
  | cons y r ih =>
    intro cs
    induction cs with
    | nil => rw [spliceList_nil_right, spliceList_chain]
    | cons c cs' ihcs =>
      by_cases hlt : c.id < y
      · rw [spliceList_cons, if_pos hlt, spliceList_cons, if_pos hlt, ihcs]
      · by_cases heq : c.id = y
        · by_cases hr : r = []
          · subst hr
            rw [spliceList_cons, if_neg hlt, if_pos heq, if_pos rfl,
              spliceList_cons, if_neg hlt, if_pos heq, if_pos rfl]
          · rw [spliceList_cons, if_neg hlt, if_pos heq, if_neg hr,
              spliceList_cons]
            show (if (Multipath.node c.id (spliceList r c.children)).id < y
                then _ else _) = _
            rw [show (Multipath.node c.id (spliceList r c.children)).id = c.id
                from rfl]
            rw [if_neg hlt, if_pos heq, if_neg hr]
            show Multipath.node c.id
                (spliceList r (Multipath.node c.id (spliceList r c.children)).children)
                :: cs' = _
            rw [show (Multipath.node c.id (spliceList r c.children)).children
                = spliceList r c.children from rfl, ih]
        · rw [spliceList_cons, if_neg hlt, if_neg heq, spliceList_cons, mkChain_id,
            if_neg (Nat.lt_irrefl y), if_pos rfl]
          cases hr : r with
          | nil => rw [if_pos rfl]
          | cons z r' =>
            rw [if_neg (List.cons_ne_nil z r')]
            show Multipath.node (mkChain y (z :: r')).id
                (spliceList (z :: r') (mkChain y (z :: r')).children) :: c :: cs' = _
            rw [mkChain_id,
              show (mkChain y (z :: r')).children = [mkChain z r'] from rfl,
              spliceList_chain]
            rfl

theorem splice_self_chain (x : Nat) (xs : List Nat) :
    ((mkChain x xs).splice (x :: xs)).1 = mkChain x xs := by
  cases xs with
  | nil => simp [Multipath.splice, mkChain, Multipath.id]
  | cons z r =>
    have h1 : (mkChain x (z :: r)).id = x := mkChain_id x (z :: r)
    have hcond : ¬ (x ≠ (mkChain x (z :: r)).id) := by
      rw [h1]
      exact fun h => h rfl
    simp only [Multipath.splice]
    rw [if_neg hcond]
    show Multipath.node (mkChain x (z :: r)).id
      (spliceList (z :: r) (mkChain x (z :: r)).children) = mkChain x (z :: r)
    rw [h1, show (mkChain x (z :: r)).children = [mkChain z r] from rfl,
      spliceList_chain]
    rfl

/-- Claim C8: for every non-empty sequence `seq`, `from_linear(seq).splice(seq)`
equals `from_linear(seq)`; and for every multipath `p` and linear path `q`
with `q[0] == p.id`, applying `splice(q)` twice yields a tree structurally
equal to applying it once. -/
theorem multipath_splice_idem :
    (∀ (x : Nat) (xs : List Nat),
      (((fromLinear x xs).splice (x :: xs)).1).equals (fromLinear x xs) = true) ∧
    (∀ (p : Multipath) (q : List Nat), q.head? = some p.id →
      (((((p.splice q).1).splice q).1).equals ((p.splice q).1)) = true) := by
  constructor
  · intro x xs
    exact equals_of_eq (splice_self_chain x xs)
  · intro p q hq
    apply equals_of_eq
    cases q with
    | nil => simp at hq
    | cons x rest =>
      have hx : x = p.id := by simpa using hq
      subst hx
      cases rest with
      | nil =>
        simp [Multipath.splice]
      | cons z rest' =>
        have h1 : (p.splice (p.id :: z :: rest')).1
            = Multipath.node p.id (spliceList (z :: rest') p.children) := by
          simp [Multipath.splice]
        rw [h1]
        have h2 : ((Multipath.node p.id
              (spliceList (z :: rest') p.children)).splice (p.id :: z :: rest')).1
            = Multipath.node p.id
              (spliceList (z :: rest') (spliceList (z :: rest') p.children)) := by
          simp [Multipath.splice, Multipath.id, Multipath.children]
        rw [h2, spliceList_idem]

theorem multipath_splice_idem_witness :
    ([1, 2].head? = some (Multipath.node 1 []).id) ∧
    (((((Multipath.node 1 []).splice [1, 2]).1).splice [1, 2]).1).equals
      (((Multipath.node 1 []).splice [1, 2]).1) = true :=
  ⟨rfl, multipath_splice_idem.2 (Multipath.node 1 []) [1, 2] rfl⟩

/-! ### Sortedness invariant (C9) -/

theorem sortedForest_iff (cs : List Multipath) :
    sortedForest cs = true ↔ ∀ c ∈ cs, sortedTree c = true := by
  induction cs with
  | nil => simp [sortedForest]
  | cons c cs ih => simp [sortedForest, Bool.and_eq_true, ih]

theorem idsIncr_iff (cs : List Multipath) :
    idsIncr cs = true ↔ List.Pairwise (fun a b : Multipath => a.id < b.id) cs := by
  induction cs with
  | nil => simp [idsIncr]
  | cons a t ih =>
    cases t with
    | nil => simp [idsIncr]
    | cons b t' =>
      constructor
      · intro h
        simp only [idsIncr, Bool.and_eq_true, decide_eq_true_eq] at h
        obtain ⟨hab, hrest⟩ := h
        have hpw := ih.mp hrest
        refine List.pairwise_cons.mpr ⟨?_, hpw⟩
        intro x hx
        rcases List.mem_cons.mp hx with h' | h'
        · subst h'; exact hab
        · exact lt_trans hab ((List.pairwise_cons.mp hpw).1 x h')
      · intro h
        rw [List.pairwise_cons] at h
        obtain ⟨hall, hpw⟩ := h
        have hab : a.id < b.id := hall b (List.mem_cons_self b t')
        simp only [idsIncr, Bool.and_eq_true, decide_eq_true_eq]
        exact ⟨hab, ih.mpr hpw⟩

/-- The two halves of the invariant for a children list: strictly increasing
ids and recursively sorted subtrees. -/
def SForest (cs : List Multipath) : Prop :=
  List.Pairwise (fun a b : Multipath => a.id < b.id) cs ∧
    ∀ c ∈ cs, sortedTree c = true

theorem sorted_node_iff (i : Nat) (cs : List Multipath) :
    sortedTree (Multipath.node i cs) = true ↔ SForest cs := by
  simp [sortedTree, Bool.and_eq_true, idsIncr_iff, sortedForest_iff, SForest]

theorem sorted_leaf (i : Nat) : sortedTree (Multipath.node i []) = true :=
  (sorted_node_iff i []).mpr ⟨List.Pairwise.nil, by simp⟩

theorem mkChain_sorted (r : List Nat) : ∀ y, sortedTree (mkChain y r) = true := by
  induction r with
  | nil => intro y; exact sorted_leaf y
  | cons z r' ih =>
    intro y
    show sortedTree (Multipath.node y [mkChain z r']) = true
    refine (sorted_node_iff _ _).mpr ⟨List.pairwise_singleton _ _, ?_⟩
    intro c hc
    rw [List.mem_singleton] at hc
    subst hc
    exact ih z

theorem emplaceList_mem (cs : List Multipath) (y : Nat) :
    ∀ t ∈ emplaceList cs y, t ∈ cs ∨ t = Multipath.node y [] := by
  induction cs with
  | nil =>
    intro t ht
    simp only [emplaceList, List.mem_singleton] at ht
    exact Or.inr ht
  | cons c cs ih =>
    intro t ht
    by_cases hlt : c.id < y
    · simp only [emplaceList, if_pos hlt] at ht
      rcases List.mem_cons.mp ht with h | h
      · exact Or.inl (h ▸ List.mem_cons_self c cs)
      · rcases ih t h with h' | h'
        · exact Or.inl (List.mem_cons_of_mem _ h')
        · exact Or.inr h'
    · by_cases heq : c.id = y
      · simp only [emplaceList, if_neg hlt, if_pos heq] at ht
        exact Or.inl ht
      · simp only [emplaceList, if_neg hlt, if_neg heq] at ht
        rcases List.mem_cons.mp ht with h | h
        · exact Or.inr h
        · exact Or.inl h

theorem emplaceList_sforest (y : Nat) :
    ∀ cs : List Multipath, SForest cs → SForest (emplaceList cs y) := by
  intro cs
  induction cs with
  | nil =>
    intro _
    refine ⟨?_, ?_⟩
    · simp only [emplaceList]
      exact List.pairwise_singleton _ _
    · intro c hc
      simp only [emplaceList, List.mem_singleton] at hc
      subst hc
      exact sorted_leaf y
  | cons c cs ih =>
    rintro ⟨hpw, hall⟩
    rw [List.pairwise_cons] at hpw
    obtain ⟨hcall, hpw'⟩ := hpw
    by_cases hlt : c.id < y
    · have ihr := ih ⟨hpw', fun t ht => hall t (List.mem_cons_of_mem _ ht)⟩
      have hunf : emplaceList (c :: cs) y = c :: emplaceList cs y := by
        simp only [emplaceList, if_pos hlt]
      rw [hunf]
      refine ⟨List.pairwise_cons.mpr ⟨?_, ihr.1⟩, ?_⟩
      · intro t ht
        rcases emplaceList_mem cs y t ht with h' | h'
        · exact hcall t h'
        · rw [h']; exact hlt
      · intro t ht
        rcases List.mem_cons.mp ht with h | h
        · exact h ▸ hall c (List.mem_cons_self c cs)
        · exact ihr.2 t h
    · by_cases heq : c.id = y
      · have hunf : emplaceList (c :: cs) y = c :: cs := by
          simp only [emplaceList, if_neg hlt, if_pos heq]
        rw [hunf]
        exact ⟨List.pairwise_cons.mpr ⟨hcall, hpw'⟩, hall⟩
      · have hunf : emplaceList (c :: cs) y = Multipath.node y [] :: c :: cs := by
          simp only [emplaceList, if_neg hlt, if_neg heq]
        rw [hunf]
        have hyc : y < c.id := by omega
        refine ⟨List.pairwise_cons.mpr ⟨?_, List.pairwise_cons.mpr ⟨hcall, hpw'⟩⟩, ?_⟩
        · intro t ht
          rcases List.mem_cons.mp ht with h | h
          · rw [h]; exact hyc
          · exact lt_trans hyc (hcall t h)
        · intro t ht
          rcases List.mem_cons.mp ht with h | h
          · rw [h]; exact sorted_leaf y
          · exact hall t h

theorem spliceList_mem (p : List Nat) :
    ∀ (cs : List Multipath) (t : Multipath), t ∈ spliceList p cs →
      (∃ c ∈ cs, t.id = c.id) ∨ p.head? = some t.id := by
  induction p with
  | nil =>
    intro cs t ht
    rw [spliceList_nil_left] at ht
    exact Or.inl ⟨t, ht, rfl⟩
  | cons y r ih =>
    intro cs
    induction cs with
    | nil =>
      intro t ht
      rw [spliceList_nil_right, List.mem_singleton] at ht
      subst ht
      rw [mkChain_id]
      exact Or.inr rfl
    | cons c cs' ihcs =>
      intro t ht
      rw [spliceList_cons] at ht
      by_cases hlt : c.id < y
      · rw [if_pos hlt] at ht
        rcases List.mem_cons.mp ht with h | h
        · exact Or.inl ⟨c, List.mem_cons_self c cs', by rw [h]⟩
        · rcases ihcs t h with ⟨c', hc', hid⟩ | h'
          · exact Or.inl ⟨c', List.mem_cons_of_mem _ hc', hid⟩
          · exact Or.inr h'
      · by_cases heq : c.id = y
        · rw [if_neg hlt, if_pos heq] at ht
          rcases List.mem_cons.mp ht with h | h
          · refine Or.inl ⟨c, List.mem_cons_self c cs', ?_⟩
            by_cases hr : r = []
            · rw [h, if_pos hr]
            · rw [h, if_neg hr]
              rfl
          · exact Or.inl ⟨t, List.mem_cons_of_mem _ h, rfl⟩
        · rw [if_neg hlt, if_neg heq] at ht
          rcases List.mem_cons.mp ht with h | h
          · rw [h, mkChain_id]
            exact Or.inr rfl
          · exact Or.inl ⟨t, h, rfl⟩

theorem spliceList_sforest (p : List Nat) :
    ∀ cs : List Multipath, SForest cs → SForest (spliceList p cs) := by
  induction p with
  | nil =>
    intro cs h
    rw [spliceList_nil_left]
    exact h
  | cons y r ih =>
    intro cs
    induction cs with
    | nil =>
      intro _
      rw [spliceList_nil_right]
      refine ⟨List.pairwise_singleton _ _, ?_⟩
      intro c hc
      rw [List.mem_singleton] at hc
      subst hc
      exact mkChain_sorted r y
    | cons c cs' ihcs =>
      rintro ⟨hpw, hall⟩
      rw [List.pairwise_cons] at hpw
      obtain ⟨hcall, hpw'⟩ := hpw
      rw [spliceList_cons]
      by_cases hlt : c.id < y
      · rw [if_pos hlt]
        have ihr := ihcs ⟨hpw', fun t ht => hall t (List.mem_cons_of_mem _ ht)⟩
        refine ⟨List.pairwise_cons.mpr ⟨?_, ihr.1⟩, ?_⟩
        · intro t ht
          rcases spliceList_mem (y :: r) cs' t ht with ⟨c', hc', hid⟩ | h'
          · exact hid ▸ hcall c' hc'
          · have : t.id = y := by
              simpa using h'.symm
            rw [this]; exact hlt
        · intro t ht
          rcases List.mem_cons.mp ht with h | h
          · exact h ▸ hall c (List.mem_cons_self c cs')
          · exact ihr.2 t h
      · by_cases heq : c.id = y
        · rw [if_neg hlt, if_pos heq]
          by_cases hr : r = []
          · rw [if_pos hr]
            exact ⟨List.pairwise_cons.mpr ⟨hcall, hpw'⟩, hall⟩
          · rw [if_neg hr]
            obtain ⟨ci, ccs⟩ := c
            have hcsort := (sorted_node_iff ci ccs).mp
              (hall _ (List.mem_cons_self _ cs'))
            have hnew := ih ccs hcsort
            refine ⟨List.pairwise_cons.mpr ⟨?_, hpw'⟩, ?_⟩
            · intro t ht
              exact hcall t ht
            · intro t ht
              rcases List.mem_cons.mp ht with h | h
              · rw [h]
                exact (sorted_node_iff _ _).mpr hnew
              · exact hall t (List.mem_cons_of_mem _ h)
        · rw [if_neg hlt, if_neg heq]
          have hyc : y < c.id := by omega
          refine ⟨List.pairwise_cons.mpr ⟨?_, List.pairwise_cons.mpr ⟨hcall, hpw'⟩⟩, ?_⟩
          · intro t ht
            rw [mkChain_id]
            rcases List.mem_cons.mp ht with h | h
            · rw [h]; exact hyc
            · exact lt_trans hyc (hcall t h)
          · intro t ht
            rcases List.mem_cons.mp ht with h | h
            · rw [h]; exact mkChain_sorted r y
            · exact hall t h

theorem emplaceAt_id (t : Multipath) (p : List Nat) (y : Nat) :
    (emplaceAt t p y).id = t.id := by
  cases p <;> rfl

theorem emplaceAt_sorted (y : Nat) (p : List Nat) :
    ∀ t : Multipath, sortedTree t = true → sortedTree (emplaceAt t p y) = true := by
  induction p with
  | nil =>
    rintro ⟨i, cs⟩ h
    show sortedTree (Multipath.node i (emplaceList cs y)) = true
    exact (sorted_node_iff _ _).mpr (emplaceList_sforest y cs ((sorted_node_iff _ _).mp h))
  | cons p0 ps ih =>
    rintro ⟨i, cs⟩ h
    obtain ⟨hpw, hall⟩ := (sorted_node_iff i cs).mp h
    show sortedTree (Multipath.node i
      (cs.map (fun c => if c.id = p0 then emplaceAt c ps y else c))) = true
    refine (sorted_node_iff _ _).mpr ⟨?_, ?_⟩
    · rw [List.pairwise_map]
      refine hpw.imp_of_mem ?_
      intro a b _ _ hab
      have ha : (if a.id = p0 then emplaceAt a ps y else a).id = a.id := by
        by_cases h' : a.id = p0
        · rw [if_pos h', emplaceAt_id]
        · rw [if_neg h']
      have hb : (if b.id = p0 then emplaceAt b ps y else b).id = b.id := by
        by_cases h' : b.id = p0
        · rw [if_pos h', emplaceAt_id]
        · rw [if_neg h']
      rw [ha, hb]
      exact hab
    · intro t ht
      rw [List.mem_map] at ht
      obtain ⟨c, hc, hct⟩ := ht
      subst hct
      by_cases h' : c.id = p0
      · rw [if_pos h']
        exact ih c (hall c hc)
      · rw [if_neg h']
        exact hall c hc

theorem splice_sorted (t : Multipath) (q : List Nat)
    (h : sortedTree t = true) : sortedTree ((t.splice q).1) = true := by
  cases q with
  | nil => exact h
  | cons x rest =>
    by_cases hx : x ≠ t.id
    · simp only [Multipath.splice, if_pos hx]
      exact h
    · cases rest with
      | nil =>
        simp only [Multipath.splice, if_neg hx]
        exact h
      | cons z r =>
        simp only [Multipath.splice, if_neg hx]
        obtain ⟨i, cs⟩ := t
        show sortedTree (Multipath.node _ (spliceList (z :: r) cs)) = true
        exact (sorted_node_iff _ _).mpr
          (spliceList_sforest (z :: r) cs ((sorted_node_iff i cs).mp h))

/-- Claim C9: for every multipath built by any sequence of construction,
`from_linear`, `emplace_node` and `splice` operations, the children sequence
of every node is strictly increasing by id (sorted ascending, no duplicate
ids). -/
theorem multipath_children_sorted (t : Multipath) (h : Built t) :
    sortedTree t = true := by
  induction h with
  | new x => exact sorted_leaf x
  | ofLinear x xs => exact mkChain_sorted xs x
  | emplace t p y _ ih => exact emplaceAt_sorted y p t ih
  | spliced t q _ ih => exact splice_sorted t q ih

theorem multipath_children_sorted_witness :
    sortedTree (emplaceAt (((fromLinear 1 [3, 5]).splice [1, 3, 4]).1) [3] 2)
      = true :=
  multipath_children_sorted _
    (Built.emplace _ [3] 2 (Built.spliced _ [1, 3, 4] (Built.ofLinear 1 [3, 5])))

/-! ### Copy construction and copy assignment (C10)

`multipath::operator=(const multipath&)` resets `size_` to `0` without
destroying the old children and then, for each source child in order,
emplaces its id and recursively copy-assigns into the obtained slot.
`append` reuses the slot beyond the current logical size in place: only the
id is overwritten, so the reused slot still carries whatever children it had
(`pool` below models the queue of reclaimed slots, initially the target's
old children, then default-constructed nodes once the buffer grows).
`insert_at` move-assigns a freshly constructed `multipath{id}` into the
insertion position (shifting consumes one reclaimed slot). -/

mutual

def copyAssign : Multipath → Multipath → Multipath
  | t, .node i cs => .node i (copyChildren cs t.children [])
termination_by t s => (sizeOf s, 0)

def copyChildren : List Multipath → List Multipath → List Multipath →
    List Multipath
  | [], _, acc => acc
  | sc :: rest, pool, acc =>
    let step := emplaceCopy acc pool sc
    copyChildren rest step.2 step.1
termination_by scs pool acc => (sizeOf scs, 0)

def emplaceCopy : List Multipath → List Multipath → Multipath →
    List Multipath × List Multipath
  | [], pool, sc =>
    match pool with
    | [] => ([copyAssign (Multipath.node 0 []) sc], [])
    | junk :: pool' => ([copyAssign junk sc], pool')
  | c :: cs, pool, sc =>
    if c.id < sc.id then
      let step := emplaceCopy cs pool sc
      (c :: step.1, step.2)
    else if c.id = sc.id then (copyAssign c sc :: cs, pool)
    else (copyAssign (Multipath.node sc.id []) sc :: c :: cs, pool.tail)
termination_by acc pool sc => (sizeOf sc, sizeOf acc)

end

/-- The copy constructor: default-construct (empty id, no children), then
copy-assign. -/
def copyCtor (other : Multipath) : Multipath :=
  copyAssign (Multipath.node 0 []) other

theorem emplaceCopy_append :
    ∀ (acc pool : List Multipath) (sc : Multipath),
      (∀ c ∈ acc, c.id < sc.id) →
      emplaceCopy acc pool sc
        = (acc ++ [copyAssign (pool.headD (Multipath.node 0 [])) sc],
            pool.tail) := by
  intro acc
  induction acc with
  | nil =>
    intro pool sc _
    cases pool with
    | nil => simp [emplaceCopy]
    | cons junk pool' => simp [emplaceCopy]
  | cons c cs ih =>
    intro pool sc hall
    have hlt : c.id < sc.id := hall c (List.mem_cons_self c cs)
    have hunf : emplaceCopy (c :: cs) pool sc
        = (c :: (emplaceCopy cs pool sc).1, (emplaceCopy cs pool sc).2) := by
      simp [emplaceCopy, hlt]
    rw [hunf, ih pool sc (fun u hu => hall u (List.mem_cons_of_mem _ hu))]
    rfl

theorem copyChildren_eq :
    ∀ (cs pool acc : List Multipath),
      (∀ sc ∈ cs, ∀ t' : Multipath, copyAssign t' sc = sc) →
      List.Pairwise (fun a b : Multipath => a.id < b.id) cs →
      (∀ c ∈ acc, ∀ sc ∈ cs, c.id < sc.id) →
      copyChildren cs pool acc = acc ++ cs := by
  intro cs
  induction cs with
  | nil =>
    intro pool acc _ _ _
    simp [copyChildren]
  | cons sc rest ih =>
    intro pool acc hfix hpw hacc
    have hunf : copyChildren (sc :: rest) pool acc
        = copyChildren rest (emplaceCopy acc pool sc).2 (emplaceCopy acc pool sc).1 := by
      simp [copyChildren]
    rw [hunf,
      emplaceCopy_append acc pool sc
        (fun c hc => hacc c hc sc (List.mem_cons_self sc rest))]
    show copyChildren rest pool.tail
        (acc ++ [copyAssign (pool.headD (Multipath.node 0 [])) sc]) = _
    rw [hfix sc (List.mem_cons_self sc rest) _]
    have hfix' : ∀ sc' ∈ rest, ∀ t' : Multipath, copyAssign t' sc' = sc' :=
      fun sc' h => hfix sc' (List.mem_cons_of_mem _ h)
    have hpw' := (List.pairwise_cons.mp hpw).2
    have hhead := (List.pairwise_cons.mp hpw).1
    have hacc' : ∀ c ∈ acc ++ [sc], ∀ sc' ∈ rest, c.id < sc'.id := by
      intro c hc sc' hsc'
      rcases List.mem_append.mp hc with h | h
      · exact hacc c h sc' (List.mem_cons_of_mem _ hsc')
      · rw [List.mem_singleton] at h
        subst h
        exact hhead sc' hsc'
    rw [ih pool.tail (acc ++ [sc]) hfix' hpw' hacc']
    simp

theorem copyAssign_eq :
    ∀ (s : Multipath), sortedTree s = true → ∀ t : Multipath, copyAssign t s = s
  | .node i cs, hs, t => by
    obtain ⟨hpw, hall⟩ := (sorted_node_iff i cs).mp hs
    have hch : ∀ sc ∈ cs, ∀ t' : Multipath, copyAssign t' sc = sc := by
      intro sc hmem t'
      exact copyAssign_eq sc (hall sc hmem) t'
    have hunf : copyAssign t (Multipath.node i cs)
        = Multipath.node i (copyChildren cs t.children []) := by
      simp [copyAssign]
    rw [hunf, copyChildren_eq cs t.children [] hch hpw (by simp),
      List.nil_append]
termination_by s => sizeOf s
decreasing_by
  have h1 := List.sizeOf_lt_of_mem hmem
  simp only [Multipath.node.sizeOf_spec]
  omega

/-- Claim C10: for every multipath `p` (maintained, as all multipaths are,
with sorted children), copy construction and copy assignment produce a
multipath structurally equal to `p` (`equals` returns `true`), even though
the assignment target's child buffer is reused in place rather than
cleared. -/
theorem multipath_copy_structural_eq (p : Multipath)
    (hp : sortedTree p = true) :
    (∀ t : Multipath, (copyAssign t p).equals p = true) ∧
    (copyCtor p).equals p = true :=
  ⟨fun t => equals_of_eq (copyAssign_eq p hp t),
    equals_of_eq (copyAssign_eq p hp _)⟩

theorem multipath_copy_structural_eq_witness :
    (sortedTree (Multipath.node 1 [Multipath.node 2 [Multipath.node 7 []],
        Multipath.node 3 []]) = true) ∧
    ((copyAssign (Multipath.node 9 [Multipath.node 4 [], Multipath.node 5 []])
        (Multipath.node 1 [Multipath.node 2 [Multipath.node 7 []],
          Multipath.node 3 []])).equals
      (Multipath.node 1 [Multipath.node 2 [Multipath.node 7 []],
        Multipath.node 3 []]) = true) := by
  have hs : sortedTree (Multipath.node 1 [Multipath.node 2 [Multipath.node 7 []],
      Multipath.node 3 []]) = true := by
    simp [sortedTree, sortedForest, idsIncr, Multipath.id]
  exact ⟨hs, (multipath_copy_structural_eq _ hs).1 _⟩

/-! ## Peer (`broker::alm::peer`)

The routing table `tbl_` is a `std::map<PeerId, routing_table_row>`, modelled
as an association list whose keys are strictly increasing (iteration order of
`std::map` is ascending by key); `distances` inside a row is accessed only
via `find`, so an association list with `lookup` is faithful.  `size_t`
overflow sentinels (`std::numeric_limits<size_t>::max()`) appear explicitly
as `usizeMax`. -/

def usizeMax : Nat := 18446744073709551615

structure RoutingEntry where
  hdl : Nat
  distances : List (Nat × Nat)
deriving DecidableEq

/-- `generic_node_message`: data or command content (`isData`, `topic`), a
`uint16_t` TTL and the receiver list. -/
structure NodeMsg where
  isData : Bool
  topic : String
  ttl : Nat
  receivers : List Nat
deriving DecidableEq

structure PeerState where
  selfId : Nat
  tbl : List (Nat × RoutingEntry)
  ttl : Nat
  peerFilters : List (Nat × List String)
  peerTimestamps : List (Nat × Nat)
deriving DecidableEq

/-- The scan in `ship`'s `get_bucket` lambda: fold over `tbl_` keeping the
first strict improvement of the distance, starting from the
default-constructed bucket name (`0`) and `SIZE_MAX`. -/
def bucketFold (tbl : List (Nat × RoutingEntry)) (r : Nat) : Nat × Nat :=
  tbl.foldl
    (fun acc kv =>
      match List.lookup r kv.2.distances with
      | some d => if d < acc.2 then (kv.1, d) else acc
      | none => acc)
    (0, usizeMax)

/-- `get_bucket`: a direct neighbor gets its own bucket; otherwise the result
of the scan, rejected when the bucket name is still the default (invalid)
value. -/
def shipRoute (st : PeerState) (r : Nat) : Option Nat :=
  if (List.lookup r st.tbl).isSome then some r
  else
    let best := bucketFold st.tbl r
    if best.1 = 0 then none else some best.1

/-- Append a receiver to the bucket of first hop `n`. -/
def appendAt (bks : List (Nat × Nat × List Nat)) (n r : Nat) :
    List (Nat × Nat × List Nat) :=
  bks.map (fun e => if e.1 = n then (e.1, e.2.1, e.2.2 ++ [r]) else e)

/-- The bucket map of `ship(msg)` after the receiver loop: one bucket per
direct neighbor (keyed and iterated in `std::map` order), receivers appended
to the bucket chosen by `get_bucket`; receivers without a path are dropped. -/
def shipBuckets (st : PeerState) (recvs : List Nat) :
    List (Nat × Nat × List Nat) :=
  recvs.foldl
    (fun bks r =>
      match shipRoute st r with
      | some n => appendAt bks n r
      | none => bks)
    (st.tbl.map (fun kv => (kv.1, kv.2.hdl, ([] : List Nat))))

/-- The per-bucket copies sent by `ship(msg)`: one copy per non-empty bucket,
with the receiver list replaced by the bucket's content.  Each element is
`(handle, copy)`. -/
def shipSends (st : PeerState) (msg : NodeMsg) : List (Nat × NodeMsg) :=
  (shipBuckets st msg.receivers).filterMap
    (fun e =>
      if e.2.2 = [] then none
      else some (e.2.1, { msg with receivers := e.2.2 }))

/-- The scan of the direct-send overload `ship(data_message, receiver)`:
explicit tie-break `x < distance || (x == distance && peer_id < hop_id)`,
accumulating `(hop_id, hop_hdl, distance)` from the defaults. -/
def hopFold (tbl : List (Nat × RoutingEntry)) (r : Nat) : Nat × Nat × Nat :=
  tbl.foldl
    (fun acc kv =>
      match List.lookup r kv.2.distances with
      | some d =>
        if d < acc.2.2 ∨ (d = acc.2.2 ∧ kv.1 < acc.1) then (kv.1, kv.2.hdl, d)
        else acc
      | none => acc)
    (0, 0, usizeMax)

/-- `ship(data_message, receiver)`: build the node message with the peer's
current TTL and singleton receiver list, send directly to a direct neighbor,
otherwise to the tie-broken shortest-path hop; `none` models the
"no path found" drop (the found-check is on the handle's validity). -/
def shipTo (st : PeerState) (tp : String) (r : Nat) : Option (Nat × NodeMsg) :=
  let msg : NodeMsg := ⟨true, tp, st.ttl, [r]⟩
  match List.lookup r st.tbl with
  | some e => some (e.hdl, msg)
  | none =>
    let acc := hopFold st.tbl r
    if acc.2.1 ≠ 0 then some (acc.2.1, msg) else none

/-- The `(neighbor, recorded distance to r)` candidates among the routing
table rows. -/
def tblCands (tbl : List (Nat × RoutingEntry)) (r : Nat) : List (Nat × Nat) :=
  tbl.filterMap (fun kv => (List.lookup r kv.2.distances).map (fun d => (kv.1, d)))

/-- The `(neighbor, handle, recorded distance to r)` candidates. -/
def tblCandsH (tbl : List (Nat × RoutingEntry)) (r : Nat) :
    List (Nat × Nat × Nat) :=
  tbl.filterMap
    (fun kv => (List.lookup r kv.2.distances).map (fun d => (kv.1, kv.2.hdl, d)))

/-- The specification-side selection: a best hop has minimal recorded
distance, and the smallest id among the neighbors attaining it. -/
def isBestHop (cl : List (Nat × Nat)) (n d : Nat) : Prop :=
  (n, d) ∈ cl ∧ (∀ c ∈ cl, d ≤ c.2) ∧ (∀ c ∈ cl, c.2 = d → n ≤ c.1)

/-- A peer is reachable when it is a direct neighbor or appears in some
neighbor's `distances` map (the definition used by `distance_to`). -/
def reachable (st : PeerState) (r : Nat) : Bool :=
  (List.lookup r st.tbl).isSome ||
    st.tbl.any (fun kv => (List.lookup r kv.2.distances).isSome)

/-- `min`-update of `src_entry.distances[origin]`: insert if missing,
otherwise lower to `distance` when the recorded value is larger. -/
def distUpdate (dm : List (Nat × Nat)) (origin d : Nat) : List (Nat × Nat) :=
  match List.lookup origin dm with
  | none => aupdate dm origin d
  | some old => if old > d then aupdate dm origin d else dm

/-- `handle_filter_update(path, filter, ts)`.  `none` models the early
`return`s (each happens before any mutation or send); `some (st', sends)`
is the updated peer state plus the `(handle, path', filter, ts)` SUBSCRIBE
messages forwarded to neighbors not contained in the extended path. -/
def handleFilterUpdate (st : PeerState) (path : List Nat) (f : List String)
    (ts : Nat) : Option (PeerState × List (Nat × List Nat × List String × Nat)) :=
  match path with
  | [] => none
  | p0 :: rest =>
    if f = [] then none
    else
      match List.lookup ((p0 :: rest).getLast (List.cons_ne_nil p0 rest)) st.tbl with
      | none => none
      | some srcEntry =>
        if (p0 :: rest).contains st.selfId then none
        else
          let distance := (p0 :: rest).length
          if distance > 65535 then none
          else
            let ttl' := max st.ttl distance
            let tbl' :=
              if distance > 1 then
                aupdate st.tbl ((p0 :: rest).getLast (List.cons_ne_nil p0 rest))
                  { srcEntry with distances := distUpdate srcEntry.distances p0 distance }
              else st.tbl
            let path2 := (p0 :: rest) ++ [st.selfId]
            let sends :=
              (tbl'.filter (fun kv => !(path2.contains kv.1))).map
                (fun kv => (kv.2.hdl, path2, f, ts))
            let oldTs := (List.lookup p0 st.peerTimestamps).getD 0
            let accept := oldTs < ts
            let pf' := if accept then aupdate st.peerFilters p0 f else st.peerFilters
            let pt' := aupdate st.peerTimestamps p0 (if accept then ts else oldTs)
            let st' : PeerState :=
              { st with
                tbl := tbl'
                ttl := ttl'
                peerFilters := pf'
                peerTimestamps := pt' }
            some (st', sends)

/-- Result of `handle_publication`: content shipped to local subscribers
(`ship_locally`) and per-neighbor copies sent onward. -/
structure PubResult where
  locals : List (Bool × String)
  sends : List (Nat × NodeMsg)
deriving DecidableEq

/-- `handle_publication(msg)`: decrement the `uint16_t` TTL (wrapping),
remove `self` from the receivers (delivering locally when removal occurred),
then ship to the remaining receivers unless the decremented TTL reached 0. -/
def handlePublication (st : PeerState) (msg : NodeMsg) : PubResult :=
  let t2 := (msg.ttl + 65535) % 65536
  let recvs := msg.receivers.filter (fun r => !(r == st.selfId))
  let locals :=
    if msg.receivers.contains st.selfId then [(msg.isData, msg.topic)] else []
  let msg2 : NodeMsg := { msg with ttl := t2, receivers := recvs }
  if recvs = [] then { locals := locals, sends := [] }
  else if t2 = 0 then { locals := locals, sends := [] }
  else { locals := locals, sends := shipSends st msg2 }

/-! ### Filter-update claims (C3, C4) -/

/-- Claim C4: `handle_filter_update` rejects — returning before any state
mutation or send, which the `none` result encodes — exactly when the path is
empty, the filter is empty, the last path element is not a direct neighbor,
`self.id` occurs in the path, or the path length exceeds 65535.  In
particular a path of length exactly 65535 meeting no other condition is
accepted. -/
theorem handle_filter_update_reject_iff (st : PeerState) (path : List Nat)
    (f : List String) (ts : Nat) :
    handleFilterUpdate st path f ts = none ↔
      (path = [] ∨ f = [] ∨
        (∃ x, path.getLast? = some x ∧ List.lookup x st.tbl = none) ∨
        st.selfId ∈ path ∨ path.length > 65535) := by
  cases path with
  | nil => simp [handleFilterUpdate]
  | cons p0 rest =>
    have hlast? : (p0 :: rest).getLast? =
        some ((p0 :: rest).getLast (List.cons_ne_nil p0 rest)) :=
      List.getLast?_eq_getLast _ _
    by_cases hf : f = []
    · constructor
      · intro _
        exact Or.inr (Or.inl hf)
      · intro _
        simp [handleFilterUpdate, hf]
    · cases hlk : List.lookup ((p0 :: rest).getLast (List.cons_ne_nil p0 rest)) st.tbl with
      | none =>
        constructor
        · intro _
          exact Or.inr (Or.inr (Or.inl ⟨_, hlast?, hlk⟩))
        · intro _
          simp [handleFilterUpdate, hf, hlk]
      | some e =>
        by_cases hself : st.selfId ∈ p0 :: rest
        · constructor
          · intro _
            exact Or.inr (Or.inr (Or.inr (Or.inl hself)))
          · intro _
            simp [handleFilterUpdate, hf, hlk, hself]
        · by_cases hlen : (p0 :: rest).length > 65535
          · constructor
            · intro _
              exact Or.inr (Or.inr (Or.inr (Or.inr hlen)))
            · intro _
              simp only [List.length_cons, gt_iff_lt] at hlen
              simp [handleFilterUpdate, hf, hlk, hself, hlen]
          · constructor
            · intro h
              exfalso
              simp only [List.length_cons, gt_iff_lt, not_lt] at hlen
              simp [handleFilterUpdate, hf, hlk, hself] at h
              omega
            · rintro (h | h | ⟨x, hx, hx2⟩ | h | h)
              · exact absurd h (List.cons_ne_nil p0 rest)
              · exact absurd h hf
              · rw [hlast?] at hx
                injection hx with hx
                subst hx
                rw [hlk] at hx2
                exact (Option.some_ne_none e hx2).elim
              · exact absurd h hself
              · exact absurd h hlen

/-- Claim C3: for an accepted `handle_filter_update` with `origin = path[0]`,
the stored filter is replaced iff the incoming timestamp is strictly greater
than the stored one (stale and equal-timestamp updates leave every stored
filter unchanged), and afterwards `peer_timestamps[origin] ≥ ts` and
`peer_timestamps[origin]` never decreased. -/
theorem handle_filter_update_timestamps (st : PeerState) (path : List Nat)
    (f : List String) (ts : Nat) (st2 : PeerState)
    (sends : List (Nat × List Nat × List String × Nat)) (p0 : Nat)
    (hacc : handleFilterUpdate st path f ts = some (st2, sends))
    (hp0 : path.head? = some p0) :
    (ts > (List.lookup p0 st.peerTimestamps).getD 0 →
        List.lookup p0 st2.peerFilters = some f) ∧
    (¬ ts > (List.lookup p0 st.peerTimestamps).getD 0 →
        st2.peerFilters = st.peerFilters) ∧
    (List.lookup p0 st2.peerTimestamps).getD 0 ≥ ts ∧
    (List.lookup p0 st2.peerTimestamps).getD 0 ≥
      (List.lookup p0 st.peerTimestamps).getD 0 := by
  cases path with
  | nil => simp [handleFilterUpdate] at hacc
  | cons q0 rest =>
    have hq0 : q0 = p0 := by simpa using hp0
    subst hq0
    by_cases hf : f = []
    · simp [handleFilterUpdate, hf] at hacc
    · cases hlk : List.lookup ((q0 :: rest).getLast (List.cons_ne_nil q0 rest)) st.tbl with
      | none => simp [handleFilterUpdate, hf, hlk] at hacc
      | some e =>
        by_cases hself : st.selfId ∈ q0 :: rest
        · simp [handleFilterUpdate, hf, hlk, hself] at hacc
        · by_cases hlen : (q0 :: rest).length > 65535
          · simp [handleFilterUpdate, hf, hlk, hself] at hacc
            have h1 := hacc.1
            simp only [List.length_cons, gt_iff_lt] at hlen
            omega
          · simp [handleFilterUpdate, hf, hlk, hself] at hacc
            obtain ⟨-, hst2, -⟩ := hacc
            subst hst2
            have hv : ∀ v : Nat,
                (List.lookup q0 (aupdate st.peerTimestamps q0 v)).getD 0 = v := by
              intro v
              rw [aupdate_lookup]
              rfl
            refine ⟨?_, ?_, ?_, ?_⟩
            · intro h
              show List.lookup q0
                  (if (List.lookup q0 st.peerTimestamps).getD 0 < ts
                    then aupdate st.peerFilters q0 f else st.peerFilters) = some f
              rw [if_pos h, aupdate_lookup]
            · intro h
              show (if (List.lookup q0 st.peerTimestamps).getD 0 < ts
                  then aupdate st.peerFilters q0 f else st.peerFilters)
                  = st.peerFilters
              rw [if_neg h]
            · show (List.lookup q0 (aupdate st.peerTimestamps q0
                  (if (List.lookup q0 st.peerTimestamps).getD 0 < ts then ts
                    else (List.lookup q0 st.peerTimestamps).getD 0))).getD 0 ≥ ts
              rw [hv]
              split <;> omega
            · show (List.lookup q0 (aupdate st.peerTimestamps q0
                  (if (List.lookup q0 st.peerTimestamps).getD 0 < ts then ts
                    else (List.lookup q0 st.peerTimestamps).getD 0))).getD 0 ≥
                (List.lookup q0 st.peerTimestamps).getD 0
              rw [hv]
              split <;> omega

theorem handle_filter_update_timestamps_witness :
    (handleFilterUpdate ⟨1, [(2, ⟨7, []⟩)], 5, [], [(5, 4)]⟩ [5, 2] ["a"] 9
      = some (⟨1, [(2, ⟨7, [(5, 2)]⟩)], 5, [(5, ["a"])], [(5, 9)]⟩, [])) ∧
    ([5, 2].head? = some 5) ∧
    (List.lookup 5
        (⟨1, [(2, ⟨7, [(5, 2)]⟩)], 5, [(5, ["a"])], [(5, 9)]⟩ : PeerState).peerFilters
      = some ["a"]) := by
  have happ := handle_filter_update_timestamps
    ⟨1, [(2, ⟨7, []⟩)], 5, [], [(5, 4)]⟩ [5, 2] ["a"] 9
    ⟨1, [(2, ⟨7, [(5, 2)]⟩)], 5, [(5, ["a"])], [(5, 9)]⟩ [] 5 rfl rfl
  exact ⟨rfl, rfl, happ.1 (by decide)⟩

/-! ### First-hop selection lemmas (C2, C5)

`bucketFold` keeps the first strict improvement while iterating the
`std::map` in ascending key order; `hopFold` breaks ties explicitly towards
the smaller peer id.  Both are reduced to folds over the candidate list and
shown to select the unique `isBestHop`. -/

theorem bucketFold_eq (tbl : List (Nat × RoutingEntry)) (r : Nat) :
    bucketFold tbl r =
      (tblCands tbl r).foldl (fun a c => if c.2 < a.2 then c else a)
        (0, usizeMax) := by
  rw [bucketFold, tblCands]
  generalize (0, usizeMax) = acc
  induction tbl generalizing acc with
  | nil => rfl
  | cons kv rest ih =>
    cases hlk : List.lookup r kv.2.distances with
    | none => simp [List.foldl_cons, List.filterMap_cons, hlk, ih]
    | some d => simp [List.foldl_cons, List.filterMap_cons, hlk, ih]

theorem hopFold_eq (tbl : List (Nat × RoutingEntry)) (r : Nat) :
    hopFold tbl r =
      (tblCandsH tbl r).foldl
        (fun a c =>
          if c.2.2 < a.2.2 ∨ (c.2.2 = a.2.2 ∧ c.1 < a.1) then c else a)
        (0, 0, usizeMax) := by
  rw [hopFold, tblCandsH]
  generalize ((0 : Nat), (0 : Nat), usizeMax) = acc
  induction tbl generalizing acc with
  | nil => rfl
  | cons kv rest ih =>
    cases hlk : List.lookup r kv.2.distances with
    | none => simp [List.foldl_cons, List.filterMap_cons, hlk, ih]
    | some d => simp [List.foldl_cons, List.filterMap_cons, hlk, ih]

theorem min1_basic (cl : List (Nat × Nat)) :
    ∀ acc : Nat × Nat,
      (cl.foldl (fun a c => if c.2 < a.2 then c else a) acc = acc ∨
        cl.foldl (fun a c => if c.2 < a.2 then c else a) acc ∈ cl) ∧
      (cl.foldl (fun a c => if c.2 < a.2 then c else a) acc).2 ≤ acc.2 ∧
      (∀ c ∈ cl, (cl.foldl (fun a c => if c.2 < a.2 then c else a) acc).2 ≤ c.2) := by
  induction cl with
  | nil => intro acc; exact ⟨Or.inl rfl, le_refl _, by simp⟩
  | cons c0 rest ih =>
    intro acc
    rw [List.foldl_cons]
    by_cases h : c0.2 < acc.2
    · rw [if_pos h]
      obtain ⟨hm, hle, hall⟩ := ih c0
      refine ⟨?_, ?_, ?_⟩
      · rcases hm with hm | hm
        · exact Or.inr (by rw [hm]; exact List.mem_cons_self c0 rest)
        · exact Or.inr (List.mem_cons_of_mem _ hm)
      · omega
      · intro c hc
        rcases List.mem_cons.mp hc with h' | h'
        · subst h'; exact hle
        · exact hall c h'
    · rw [if_neg h]
      obtain ⟨hm, hle, hall⟩ := ih acc
      refine ⟨?_, hle, ?_⟩
      · rcases hm with hm | hm
        · exact Or.inl hm
        · exact Or.inr (List.mem_cons_of_mem _ hm)
      · intro c hc
        rcases List.mem_cons.mp hc with h' | h'
        · subst h'; omega
        · exact hall c h'

theorem min1_strict (cl : List (Nat × Nat)) :
    ∀ acc : Nat × Nat,
      cl.foldl (fun a c => if c.2 < a.2 then c else a) acc = acc ∨
      (cl.foldl (fun a c => if c.2 < a.2 then c else a) acc).2 < acc.2 := by
  induction cl with
  | nil => intro acc; exact Or.inl rfl
  | cons c0 rest ih =>
    intro acc
    rw [List.foldl_cons]
    by_cases h : c0.2 < acc.2
    · rw [if_pos h]
      rcases ih c0 with h' | h'
      · rw [h']; omega
      · omega
    · rw [if_neg h]
      exact ih acc

theorem min1_tie (cl : List (Nat × Nat)) :
    List.Pairwise (fun a b : Nat × Nat => a.1 < b.1) cl →
    ∀ acc : Nat × Nat, ∀ c ∈ cl,
      c.2 = (cl.foldl (fun a c => if c.2 < a.2 then c else a) acc).2 →
      cl.foldl (fun a c => if c.2 < a.2 then c else a) acc = acc ∨
      (cl.foldl (fun a c => if c.2 < a.2 then c else a) acc).1 ≤ c.1 := by
  induction cl with
  | nil => intro _ acc c hc; exact absurd hc (List.not_mem_nil c)
  | cons c0 rest ih =>
    intro hpw acc c hc htie
    rw [List.pairwise_cons] at hpw
    obtain ⟨hhead, htail⟩ := hpw
    rw [List.foldl_cons] at htie ⊢
    by_cases h : c0.2 < acc.2
    · rw [if_pos h] at htie ⊢
      rcases List.mem_cons.mp hc with h' | h'
      · rw [h'] at htie ⊢
        rcases (min1_basic rest c0).1 with hm | hm
        · rw [hm]
          exact Or.inr (le_refl _)
        · rcases min1_strict rest c0 with hs | hs
          · rw [hs]
            exact Or.inr (le_refl _)
          · exfalso
            omega
      · rcases ih htail c0 c h' htie with h'' | h''
        · rw [h'']
          exact Or.inr (le_of_lt (hhead c h'))
        · exact Or.inr h''
    · rw [if_neg h] at htie ⊢
      rcases List.mem_cons.mp hc with h' | h'
      · rw [h'] at htie ⊢
        rcases min1_strict rest acc with hs | hs
        · exact Or.inl hs
        · exfalso
          omega
      · exact ih htail acc c h' htie

/-- Strict-or-tie lexicographic order on `(id, hdl, distance)` triples by
`(distance, id)`. -/
def lexLe (a b : Nat × Nat × Nat) : Prop :=
  a.2.2 < b.2.2 ∨ (a.2.2 = b.2.2 ∧ a.1 ≤ b.1)

theorem min2_min (cl : List (Nat × Nat × Nat)) :
    ∀ acc : Nat × Nat × Nat,
      ((cl.foldl
          (fun a c =>
            if c.2.2 < a.2.2 ∨ (c.2.2 = a.2.2 ∧ c.1 < a.1) then c else a)
          acc = acc) ∨
        cl.foldl
          (fun a c =>
            if c.2.2 < a.2.2 ∨ (c.2.2 = a.2.2 ∧ c.1 < a.1) then c else a)
          acc ∈ cl) ∧
      lexLe
        (cl.foldl
          (fun a c =>
            if c.2.2 < a.2.2 ∨ (c.2.2 = a.2.2 ∧ c.1 < a.1) then c else a)
          acc) acc ∧
      (∀ c ∈ cl,
        lexLe
          (cl.foldl
            (fun a c =>
              if c.2.2 < a.2.2 ∨ (c.2.2 = a.2.2 ∧ c.1 < a.1) then c else a)
            acc) c) := by
  induction cl with
  | nil =>
    intro acc
    exact ⟨Or.inl rfl, Or.inr ⟨rfl, le_refl _⟩, by simp⟩
  | cons c0 rest ih =>
    intro acc
    rw [List.foldl_cons]
    by_cases h : c0.2.2 < acc.2.2 ∨ (c0.2.2 = acc.2.2 ∧ c0.1 < acc.1)
    · rw [if_pos h]
      obtain ⟨hm, hle, hall⟩ := ih c0
      refine ⟨?_, ?_, ?_⟩
      · rcases hm with hm | hm
        · exact Or.inr (by rw [hm]; exact List.mem_cons_self c0 rest)
        · exact Or.inr (List.mem_cons_of_mem _ hm)
      · unfold lexLe at hle ⊢
        omega
      · intro c hc
        rcases List.mem_cons.mp hc with h' | h'
        · subst h'; exact hle
        · exact hall c h'
    · rw [if_neg h]
      obtain ⟨hm, hle, hall⟩ := ih acc
      refine ⟨?_, hle, ?_⟩
      · rcases hm with hm | hm
        · exact Or.inl hm
        · exact Or.inr (List.mem_cons_of_mem _ hm)
      · intro c hc
        rcases List.mem_cons.mp hc with h' | h'
        · subst h'
          unfold lexLe at hle ⊢
          omega
        · exact hall c h'

theorem mem_tblCands {tbl : List (Nat × RoutingEntry)} {r : Nat} {c : Nat × Nat} :
    c ∈ tblCands tbl r ↔
      ∃ kv ∈ tbl, kv.1 = c.1 ∧ List.lookup r kv.2.distances = some c.2 := by
  constructor
  · intro h
    rw [tblCands, List.mem_filterMap] at h
    obtain ⟨kv, hkv, hmap⟩ := h
    rw [Option.map_eq_some'] at hmap
    obtain ⟨d, hd, hc⟩ := hmap
    subst hc
    exact ⟨kv, hkv, rfl, hd⟩
  · rintro ⟨kv, hkv, h1, h2⟩
    rw [tblCands, List.mem_filterMap]
    refine ⟨kv, hkv, ?_⟩
    rw [h2, Option.map_some', h1]

theorem mem_tblCandsH {tbl : List (Nat × RoutingEntry)} {r : Nat}
    {c : Nat × Nat × Nat} :
    c ∈ tblCandsH tbl r ↔
      ∃ kv ∈ tbl, kv.1 = c.1 ∧ kv.2.hdl = c.2.1 ∧
        List.lookup r kv.2.distances = some c.2.2 := by
  constructor
  · intro h
    rw [tblCandsH, List.mem_filterMap] at h
    obtain ⟨kv, hkv, hmap⟩ := h
    rw [Option.map_eq_some'] at hmap
    obtain ⟨d, hd, hc⟩ := hmap
    subst hc
    exact ⟨kv, hkv, rfl, rfl, hd⟩
  · rintro ⟨kv, hkv, h1, h2, h3⟩
    rw [tblCandsH, List.mem_filterMap]
    refine ⟨kv, hkv, ?_⟩
    rw [h3, Option.map_some', h1, h2]

theorem tblCands_pairwise {tbl : List (Nat × RoutingEntry)} {r : Nat}
    (hsort : List.Pairwise (fun a b : Nat × RoutingEntry => a.1 < b.1) tbl) :
    List.Pairwise (fun a b : Nat × Nat => a.1 < b.1) (tblCands tbl r) := by
  induction tbl with
  | nil => exact List.Pairwise.nil
  | cons kv rest ih =>
    rw [List.pairwise_cons] at hsort
    rw [tblCands, List.filterMap_cons]
    cases hlk : List.lookup r kv.2.distances with
    | none => exact ih hsort.2
    | some d =>
      simp only [Option.map_some']
      refine List.pairwise_cons.mpr ⟨?_, ih hsort.2⟩
      intro c hc
      obtain ⟨kv', hkv', h1, -⟩ := mem_tblCands.mp hc
      rw [← h1]
      exact hsort.1 kv' hkv'

theorem lookup_of_mem_pw {α : Type} (tbl : List (Nat × α))
    (hsort : List.Pairwise (fun a b : Nat × α => a.1 < b.1) tbl)
    (kv : Nat × α) (hm : kv ∈ tbl) : List.lookup kv.1 tbl = some kv.2 := by
  induction tbl with
  | nil => cases hm
  | cons hd rest ih =>
    rw [List.pairwise_cons] at hsort
    obtain ⟨k0, v0⟩ := hd
    rcases List.mem_cons.mp hm with h | h
    · subst h
      simp [List.lookup]
    · have hlt : k0 < kv.1 := hsort.1 kv h
      have hne : (kv.1 == k0) = false := by
        rw [beq_eq_false_iff_ne]
        omega
      simp only [List.lookup, hne]
      exact ih hsort.2 h

theorem isBestHop_unique (cl : List (Nat × Nat)) (n d n' d' : Nat)
    (h1 : isBestHop cl n d) (h2 : isBestHop cl n' d') : n' = n ∧ d' = d := by
  obtain ⟨hm1, hmin1, htie1⟩ := h1
  obtain ⟨hm2, hmin2, htie2⟩ := h2
  have hd : d = d' := le_antisymm (hmin1 (n', d') hm2) (hmin2 (n, d) hm1)
  have ha := htie1 (n', d') hm2 hd.symm
  have hb := htie2 (n, d) hm1 hd
  omega

theorem min1_select (cl : List (Nat × Nat))
    (hpw : List.Pairwise (fun a b : Nat × Nat => a.1 < b.1) cl)
    (hbound : ∀ c ∈ cl, c.2 < usizeMax) (hne : cl ≠ []) :
    ∃ q ∈ cl,
      cl.foldl (fun a c => if c.2 < a.2 then c else a) (0, usizeMax) = q ∧
      isBestHop cl q.1 q.2 := by
  obtain ⟨hm, -, hall⟩ := min1_basic cl (0, usizeMax)
  rcases hm with hm | hm
  · exfalso
    obtain ⟨c, hc⟩ := List.exists_mem_of_ne_nil _ hne
    have h1 := hall c hc
    have h2 := hbound c hc
    rw [hm] at h1
    simp only at h1
    omega
  · refine ⟨_, hm, rfl, by simpa using hm, hall, ?_⟩
    intro c hc htie
    rcases min1_tie cl hpw (0, usizeMax) c hc htie with h | h
    · exfalso
      have h2 := hbound _ hm
      rw [h] at h2
      simp only at h2
      omega
    · exact h

theorem min2_select (clH : List (Nat × Nat × Nat))
    (hbound : ∀ c ∈ clH, c.2.2 < usizeMax) (hne : clH ≠ []) :
    ∃ q ∈ clH,
      clH.foldl
        (fun a c =>
          if c.2.2 < a.2.2 ∨ (c.2.2 = a.2.2 ∧ c.1 < a.1) then c else a)
        (0, 0, usizeMax) = q ∧
      (∀ c ∈ clH, lexLe q c) := by
  obtain ⟨hm, -, hall⟩ := min2_min clH (0, 0, usizeMax)
  rcases hm with hm | hm
  · exfalso
    obtain ⟨c, hc⟩ := List.exists_mem_of_ne_nil _ hne
    have h1 := hall c hc
    have h2 := hbound c hc
    rw [hm] at h1
    unfold lexLe at h1
    simp only at h1
    omega
  · exact ⟨_, hm, rfl, hall⟩

/-- Claim C2: in both `ship(msg)` and the direct-send
`ship(data_message, receiver)`, a receiver that is not a direct neighbor is
routed to the neighbor with the minimum recorded distance, ties broken
towards the smallest PeerId, and both selections agree deterministically
with the unique `isBestHop`. -/
theorem ship_first_hop_tiebreak (st : PeerState) (r : Nat) (tp : String)
    (hsort : List.Pairwise (fun a b : Nat × RoutingEntry => a.1 < b.1) st.tbl)
    (hvalid : ∀ kv ∈ st.tbl, kv.1 ≠ 0)
    (hhdl : ∀ kv ∈ st.tbl, kv.2.hdl ≠ 0)
    (hdist : ∀ c ∈ tblCands st.tbl r, c.2 < usizeMax)
    (hnd : List.lookup r st.tbl = none)
    (hne : tblCands st.tbl r ≠ []) :
    ∃ n d e, isBestHop (tblCands st.tbl r) n d ∧
      (∀ n' d', isBestHop (tblCands st.tbl r) n' d' → n' = n ∧ d' = d) ∧
      List.lookup n st.tbl = some e ∧
      shipRoute st r = some n ∧
      shipTo st tp r = some (e.hdl, ⟨true, tp, st.ttl, [r]⟩) := by
  obtain ⟨q, hq_mem, hq_eq, hq_best⟩ :=
    min1_select (tblCands st.tbl r) (tblCands_pairwise hsort) hdist hne
  have hq1ne : q.1 ≠ 0 := by
    obtain ⟨kv, hkv, h1, -⟩ := mem_tblCands.mp hq_mem
    rw [← h1]
    exact hvalid kv hkv
  have hroute : shipRoute st r = some q.1 := by
    rw [shipRoute, hnd]
    simp only [Option.isSome_none, Bool.false_eq_true, if_false, ite_false]
    rw [bucketFold_eq, hq_eq, if_neg hq1ne]
  have hboundH : ∀ c ∈ tblCandsH st.tbl r, c.2.2 < usizeMax := by
    intro c hc
    obtain ⟨kv, hkv, h1, h2, h3⟩ := mem_tblCandsH.mp hc
    exact hdist (c.1, c.2.2) (mem_tblCands.mpr ⟨kv, hkv, h1, h3⟩)
  have hneH : tblCandsH st.tbl r ≠ [] := by
    obtain ⟨c, hc⟩ := List.exists_mem_of_ne_nil _ hne
    obtain ⟨kv, hkv, h1, h2⟩ := mem_tblCands.mp hc
    intro hempty
    have : (c.1, kv.2.hdl, c.2) ∈ tblCandsH st.tbl r :=
      mem_tblCandsH.mpr ⟨kv, hkv, h1, rfl, h2⟩
    rw [hempty] at this
    exact absurd this (List.not_mem_nil _)
  obtain ⟨qH, hqH_mem, hqH_eq, hqH_all⟩ := min2_select _ hboundH hneH
  have hbestH : isBestHop (tblCands st.tbl r) qH.1 qH.2.2 := by
    obtain ⟨kv, hkv, h1, h2, h3⟩ := mem_tblCandsH.mp hqH_mem
    refine ⟨mem_tblCands.mpr ⟨kv, hkv, h1, h3⟩, ?_, ?_⟩
    · intro c hc
      obtain ⟨kv2, hkv2, h12, h22⟩ := mem_tblCands.mp hc
      have hcH : (c.1, kv2.2.hdl, c.2) ∈ tblCandsH st.tbl r :=
        mem_tblCandsH.mpr ⟨kv2, hkv2, h12, rfl, h22⟩
      have := hqH_all _ hcH
      unfold lexLe at this
      simp only at this
      omega
    · intro c hc htie
      obtain ⟨kv2, hkv2, h12, h22⟩ := mem_tblCands.mp hc
      have hcH : (c.1, kv2.2.hdl, c.2) ∈ tblCandsH st.tbl r :=
        mem_tblCandsH.mpr ⟨kv2, hkv2, h12, rfl, h22⟩
      have := hqH_all _ hcH
      unfold lexLe at this
      simp only at this
      omega
  have hagree := isBestHop_unique _ _ _ _ _ hq_best hbestH
  obtain ⟨kv, hkv, h1, h2, h3⟩ := mem_tblCandsH.mp hqH_mem
  have he : List.lookup q.1 st.tbl = some kv.2 := by
    have hl := lookup_of_mem_pw st.tbl hsort kv hkv
    rw [h1, hagree.1] at hl
    exact hl
  have hto : shipTo st tp r = some (qH.2.1, ⟨true, tp, st.ttl, [r]⟩) := by
    rw [shipTo, hnd]
    simp only
    rw [hopFold_eq, hqH_eq]
    have hne0 : qH.2.1 ≠ 0 := by
      rw [← h2]
      exact hhdl kv hkv
    rw [if_pos hne0]
  refine ⟨q.1, q.2, kv.2, hq_best, ?_, he, hroute, ?_⟩
  · intro n2 d2 hb
    exact isBestHop_unique _ _ _ _ _ hq_best hb
  · rw [hto, h2]

theorem ship_first_hop_tiebreak_witness :
    ∃ n d e,
      isBestHop
        (tblCands (⟨1, [(2, ⟨7, [(9, 2)]⟩), (3, ⟨8, [(9, 2)]⟩)], 5, [], []⟩ :
          PeerState).tbl 9) n d ∧
      (∀ n' d',
        isBestHop
          (tblCands (⟨1, [(2, ⟨7, [(9, 2)]⟩), (3, ⟨8, [(9, 2)]⟩)], 5, [], []⟩ :
            PeerState).tbl 9) n' d' → n' = n ∧ d' = d) ∧
      List.lookup n
        (⟨1, [(2, ⟨7, [(9, 2)]⟩), (3, ⟨8, [(9, 2)]⟩)], 5, [], []⟩ :
          PeerState).tbl = some e ∧
      shipRoute (⟨1, [(2, ⟨7, [(9, 2)]⟩), (3, ⟨8, [(9, 2)]⟩)], 5, [], []⟩ :
        PeerState) 9 = some n ∧
      shipTo (⟨1, [(2, ⟨7, [(9, 2)]⟩), (3, ⟨8, [(9, 2)]⟩)], 5, [], []⟩ :
        PeerState) "x" 9 =
        some (e.hdl,
          ⟨true, "x",
            (⟨1, [(2, ⟨7, [(9, 2)]⟩), (3, ⟨8, [(9, 2)]⟩)], 5, [], []⟩ :
              PeerState).ttl, [9]⟩) :=
  ship_first_hop_tiebreak
    ⟨1, [(2, ⟨7, [(9, 2)]⟩), (3, ⟨8, [(9, 2)]⟩)], 5, [], []⟩ 9 "x"
    (by decide) (by decide) (by decide) (by decide) (by decide) (by decide)

/-! ### Bucket partition lemmas (C5) -/

theorem mem_of_lookup {α : Type} (l : List (Nat × α)) (a : Nat) (b : α)
    (h : List.lookup a l = some b) : (a, b) ∈ l := by
  induction l with
  | nil => simp [List.lookup] at h
  | cons kv rest ih =>
    obtain ⟨k0, v0⟩ := kv
    by_cases hk : a = k0
    · subst hk
      simp [List.lookup] at h
      subst h
      exact List.mem_cons_self _ _
    · have hne : (a == k0) = false := beq_eq_false_iff_ne.mpr hk
      simp only [List.lookup, hne] at h
      exact List.mem_cons_of_mem _ (ih h)

theorem map_triple_eta (bks : List (Nat × Nat × List Nat)) :
    bks.map (fun e => (e.1, e.2.1, e.2.2)) = bks := by
  induction bks with
  | nil => rfl
  | cons e rest ih =>
    obtain ⟨a, b, c⟩ := e
    simp [ih]

theorem shipFold_filter (st : PeerState) (recvs : List Nat) :
    ∀ bks : List (Nat × Nat × List Nat),
      recvs.foldl
        (fun bks r =>
          match shipRoute st r with
          | some n => appendAt bks n r
          | none => bks) bks
      = bks.map (fun e => (e.1, e.2.1,
          e.2.2 ++ recvs.filter (fun r => shipRoute st r == some e.1))) := by
  induction recvs with
  | nil =>
    intro bks
    simp [map_triple_eta]
  | cons r rest ih =>
    intro bks
    rw [List.foldl_cons]
    cases hsr : shipRoute st r with
    | none =>
      simp only [hsr]
      rw [ih]
      apply List.map_congr_left
      intro e _
      rw [List.filter_cons]
      have hbeq : (shipRoute st r == some e.1) = false := by
        rw [hsr]
        rfl
      rw [hbeq]
      simp
    | some n =>
      simp only [hsr]
      rw [appendAt, ih, List.map_map]
      apply List.map_congr_left
      intro e _
      simp only [Function.comp]
      by_cases he : e.1 = n
      · rw [if_pos he, List.filter_cons]
        have hbeq : (shipRoute st r == some e.1) = true := by
          rw [hsr, he]
          simp
        rw [hbeq]
        simp [List.append_assoc]
      · rw [if_neg he, List.filter_cons]
        have hbeq : (shipRoute st r == some e.1) = false := by
          rw [hsr]
          simp
          exact fun hh => he hh.symm
        rw [hbeq]
        simp

theorem shipBuckets_eq (st : PeerState) (recvs : List Nat) :
    shipBuckets st recvs = st.tbl.map (fun kv => (kv.1, kv.2.hdl,
      recvs.filter (fun r => shipRoute st r == some kv.1))) := by
  rw [shipBuckets, shipFold_filter, List.map_map]
  apply List.map_congr_left
  intro kv _
  simp [Function.comp]

theorem shipSends_receivers (st : PeerState) (msg : NodeMsg) :
    (shipSends st msg).map (fun s => s.2.receivers)
      = ((shipBuckets st msg.receivers).map (fun e => e.2.2)).filter
          (fun l => !(l == [])) := by
  rw [shipSends]
  generalize shipBuckets st msg.receivers = bks
  induction bks with
  | nil => rfl
  | cons e rest ih =>
    by_cases he : e.2.2 = []
    · simp [List.filterMap_cons, he, List.filter_cons, ih]
    · simp [List.filterMap_cons, he, List.filter_cons, ih]

theorem flatten_filter_nonnil (l : List (List Nat)) :
    (l.filter (fun x => !(x == []))).flatten = l.flatten := by
  induction l with
  | nil => rfl
  | cons x rest ih =>
    rw [List.filter_cons]
    by_cases hx : x = []
    · subst hx
      rw [show (!(([] : List Nat) == [])) = false from rfl]
      simp only [Bool.false_eq_true, if_false, ite_false]
      rw [ih, List.flatten_cons, List.nil_append]
    · rw [show (!(x == [])) = true from by simpa using hx]
      simp only [if_true, ite_true]
      rw [List.flatten_cons, List.flatten_cons, ih]

theorem shipRoute_mem_keys (st : PeerState) (r n : Nat)
    (h : shipRoute st r = some n) : n ∈ st.tbl.map Prod.fst := by
  rw [shipRoute] at h
  by_cases hd : (List.lookup r st.tbl).isSome
  · rw [if_pos hd] at h
    injection h with h
    subst h
    cases hlk : List.lookup r st.tbl with
    | none => rw [hlk] at hd; simp at hd
    | some v =>
      exact List.mem_map.mpr ⟨(r, v), mem_of_lookup _ _ _ hlk, rfl⟩
  · rw [if_neg hd] at h
    by_cases h0 : (bucketFold st.tbl r).1 = 0
    · rw [if_pos h0] at h
      cases h
    · rw [if_neg h0] at h
      injection h with h
      subst h
      rw [bucketFold_eq] at h0 ⊢
      obtain ⟨hm, -, -⟩ := min1_basic (tblCands st.tbl r) (0, usizeMax)
      rcases hm with hm | hm
      · rw [hm] at h0
        exact absurd rfl h0
      · obtain ⟨kv, hkv, h1, -⟩ := mem_tblCands.mp hm
        exact List.mem_map.mpr ⟨kv, hkv, h1⟩

theorem tblCands_bound (st : PeerState) (r : Nat)
    (hdists : ∀ kv ∈ st.tbl, ∀ c ∈ kv.2.distances, c.2 < usizeMax) :
    ∀ c ∈ tblCands st.tbl r, c.2 < usizeMax := by
  intro c hc
  obtain ⟨kv, hkv, -, h2⟩ := mem_tblCands.mp hc
  exact hdists kv hkv (r, c.2) (mem_of_lookup _ _ _ h2)

theorem tblCands_ne_nil_iff (tbl : List (Nat × RoutingEntry)) (r : Nat) :
    tblCands tbl r ≠ [] ↔
      tbl.any (fun kv => (List.lookup r kv.2.distances).isSome) = true := by
  rw [List.any_eq_true]
  constructor
  · intro h
    obtain ⟨c, hc⟩ := List.exists_mem_of_ne_nil _ h
    obtain ⟨kv, hkv, -, h2⟩ := mem_tblCands.mp hc
    exact ⟨kv, hkv, by rw [h2]; rfl⟩
  · rintro ⟨kv, hkv, hx⟩ hempty
    cases hlk : List.lookup r kv.2.distances with
    | none => rw [hlk] at hx; simp at hx
    | some d =>
      have : (kv.1, d) ∈ tblCands tbl r :=
        mem_tblCands.mpr ⟨kv, hkv, rfl, hlk⟩
      rw [hempty] at this
      exact absurd this (List.not_mem_nil _)

theorem shipRoute_isSome_iff (st : PeerState) (r : Nat)
    (hsort : List.Pairwise (fun a b : Nat × RoutingEntry => a.1 < b.1) st.tbl)
    (hvalid : ∀ kv ∈ st.tbl, kv.1 ≠ 0)
    (hdists : ∀ kv ∈ st.tbl, ∀ c ∈ kv.2.distances, c.2 < usizeMax) :
    (shipRoute st r).isSome = reachable st r := by
  rw [shipRoute, reachable]
  by_cases hd : (List.lookup r st.tbl).isSome
  · rw [if_pos hd, hd]
    rfl
  · rw [if_neg hd]
    have hd' : (List.lookup r st.tbl).isSome = false := Bool.eq_false_iff.mpr hd
    rw [hd']
    simp only [Bool.false_or]
    by_cases hne : tblCands st.tbl r ≠ []
    · obtain ⟨q, hq_mem, hq_eq, -⟩ :=
        min1_select (tblCands st.tbl r) (tblCands_pairwise hsort)
          (tblCands_bound st r hdists) hne
      have hq1 : q.1 ≠ 0 := by
        obtain ⟨kv, hkv, h1, -⟩ := mem_tblCands.mp hq_mem
        rw [← h1]
        exact hvalid kv hkv
      rw [bucketFold_eq, hq_eq, if_neg hq1]
      exact ((tblCands_ne_nil_iff st.tbl r).mp hne).symm
    · push_neg at hne
      rw [bucketFold_eq, hne]
      simp only [List.foldl_nil, if_pos rfl]
      have : st.tbl.any (fun kv => (List.lookup r kv.2.distances).isSome) = false := by
        by_contra hany
        have := (tblCands_ne_nil_iff st.tbl r).mpr (by simpa using hany)
        exact this hne
      rw [this]
      rfl

theorem count_filter_neg (a : Nat) (l : List Nat) (p : Nat → Bool)
    (hp : p a = false) : (l.filter p).count a = 0 :=
  List.count_eq_zero.mpr (fun hmem => by
    have h2 := (List.mem_filter.mp hmem).2
    rw [hp] at h2
    cases h2)

theorem count_flatten_buckets (st : PeerState) (recvs : List Nat) (a : Nat) :
    ∀ tbl : List (Nat × RoutingEntry), (tbl.map Prod.fst).Nodup →
      ((tbl.map (fun kv => recvs.filter
          (fun r => shipRoute st r == some kv.1))).flatten).count a
      = (match shipRoute st a with
          | some n => if n ∈ tbl.map Prod.fst then recvs.count a else 0
          | none => 0) := by
  intro tbl hnd
  induction tbl with
  | nil => cases shipRoute st a <;> simp
  | cons kv rest ih =>
    rw [List.map_cons] at hnd
    rw [List.nodup_cons] at hnd
    obtain ⟨hk, hnd'⟩ := hnd
    rw [List.map_cons, List.flatten_cons, List.count_append]
    cases hra : shipRoute st a with
    | none =>
      have h1 : (recvs.filter (fun r => shipRoute st r == some kv.1)).count a = 0 :=
        count_filter_neg _ _ _ (by rw [hra]; rfl)
      rw [h1, ih hnd', hra]
      simp
    | some n =>
      by_cases hn : n = kv.1
      · subst hn
        have h1 : (recvs.filter (fun r => shipRoute st r == some kv.1)).count a
            = recvs.count a :=
          List.count_filter (by rw [hra]; simp)
        rw [h1, ih hnd']
        simp only [hra]
        rw [if_neg hk, List.map_cons, if_pos (List.mem_cons_self _ _)]
        omega
      · have h1 : (recvs.filter (fun r => shipRoute st r == some kv.1)).count a
            = 0 :=
          count_filter_neg _ _ _ (by
            rw [hra]
            simp only [beq_eq_false_iff_ne, ne_eq, Option.some.injEq]
            exact hn)
        rw [h1, ih hnd']
        simp only [hra, List.map_cons, Nat.zero_add]
        by_cases hm : n ∈ rest.map Prod.fst
        · rw [if_pos hm, if_pos (List.mem_cons_of_mem _ hm)]
        · rw [if_neg hm, if_neg ?_]
          intro h
          rcases List.mem_cons.mp h with h | h
          · exact hn h
          · exact hm h

theorem not_in_copies (st : PeerState) (msg : NodeMsg) (a : Nat)
    (hra : shipRoute st a = none) :
    ∀ s ∈ shipSends st msg, a ∉ s.2.receivers := by
  intro s hs hmem
  rw [shipSends, shipBuckets_eq, List.filterMap_map] at hs
  rw [List.mem_filterMap] at hs
  obtain ⟨kv, hkv, hf⟩ := hs
  simp only [Function.comp] at hf
  by_cases hb : msg.receivers.filter (fun r => shipRoute st r == some kv.1) = []
  · rw [if_pos hb] at hf
    cases hf
  · rw [if_neg hb] at hf
    injection hf with hf
    subst hf
    simp only at hmem
    have := (List.mem_filter.mp hmem).2
    rw [hra] at this
    cases this

theorem copies_with_receiver_zero (st : PeerState) (msg : NodeMsg) (a n : Nat)
    (hra : shipRoute st a = some n) :
    ∀ tbl : List (Nat × RoutingEntry), n ∉ tbl.map Prod.fst →
      (((tbl.map (fun kv => (kv.1, kv.2.hdl, msg.receivers.filter
          (fun r => shipRoute st r == some kv.1)))).filterMap
        (fun e => if e.2.2 = [] then none
          else some (e.2.1, { msg with receivers := e.2.2 }))).filter
        (fun s => s.2.receivers.contains a)).length = 0 := by
  intro tbl hn
  induction tbl with
  | nil => rfl
  | cons kv rest ih =>
    rw [List.map_cons] at hn
    have hne : n ≠ kv.1 := fun h => hn (by rw [h]; exact List.mem_cons_self _ _)
    have hrest : n ∉ rest.map Prod.fst := fun h => hn (List.mem_cons_of_mem _ h)
    have hana : a ∉ msg.receivers.filter (fun r => shipRoute st r == some kv.1) := by
      intro hmem
      have h2 := (List.mem_filter.mp hmem).2
      rw [hra] at h2
      simp only [beq_iff_eq, Option.some.injEq] at h2
      exact hne h2
    rw [List.map_cons, List.filterMap_cons]
    by_cases hb : msg.receivers.filter (fun r => shipRoute st r == some kv.1) = []
    · simp only [hb, if_pos rfl]
      exact ih hrest
    · simp only [if_neg hb]
      rw [List.filter_cons]
      have hcont : (msg.receivers.filter
          (fun r => shipRoute st r == some kv.1)).contains a = false := by
        simpa using hana
      simp only [hcont, Bool.false_eq_true, if_false, ite_false]
      exact ih hrest

theorem copies_with_receiver_one (st : PeerState) (msg : NodeMsg) (a n : Nat)
    (hra : shipRoute st a = some n) (hmem : a ∈ msg.receivers) :
    ∀ tbl : List (Nat × RoutingEntry), (tbl.map Prod.fst).Nodup →
      n ∈ tbl.map Prod.fst →
      (((tbl.map (fun kv => (kv.1, kv.2.hdl, msg.receivers.filter
          (fun r => shipRoute st r == some kv.1)))).filterMap
        (fun e => if e.2.2 = [] then none
          else some (e.2.1, { msg with receivers := e.2.2 }))).filter
        (fun s => s.2.receivers.contains a)).length = 1 := by
  intro tbl hnd hmemk
  induction tbl with
  | nil => cases hmemk
  | cons kv rest ih =>
    rw [List.map_cons] at hnd hmemk
    rw [List.nodup_cons] at hnd
    obtain ⟨hk, hnd'⟩ := hnd
    rw [List.map_cons, List.filterMap_cons]
    by_cases hn : n = kv.1
    · have haf : a ∈ msg.receivers.filter
          (fun r => shipRoute st r == some kv.1) := by
        rw [List.mem_filter]
        refine ⟨hmem, ?_⟩
        rw [hra, hn]
        simp
      have hb : msg.receivers.filter (fun r => shipRoute st r == some kv.1) ≠ [] := by
        intro h
        rw [h] at haf
        exact absurd haf (List.not_mem_nil _)
      simp only [if_neg hb]
      rw [List.filter_cons]
      have hcont : (msg.receivers.filter
          (fun r => shipRoute st r == some kv.1)).contains a = true := by
        simpa using haf
      simp only [hcont, if_true, ite_true, List.length_cons]
      have hz := copies_with_receiver_zero st msg a n hra rest (by
        rw [← hn] at hk
        exact hk)
      rw [hz]
    · have hmemk' : n ∈ rest.map Prod.fst := by
        rcases List.mem_cons.mp hmemk with h | h
        · exact absurd h hn
        · exact h
      have hana : a ∉ msg.receivers.filter
          (fun r => shipRoute st r == some kv.1) := by
        intro hmem2
        have h2 := (List.mem_filter.mp hmem2).2
        rw [hra] at h2
        simp only [beq_iff_eq, Option.some.injEq] at h2
        exact hn h2
      by_cases hb : msg.receivers.filter (fun r => shipRoute st r == some kv.1) = []
      · simp only [hb, if_pos rfl]
        exact ih hnd' hmemk'
      · simp only [if_neg hb]
        rw [List.filter_cons]
        have hcont : (msg.receivers.filter
            (fun r => shipRoute st r == some kv.1)).contains a = false := by
          simpa using hana
        simp only [hcont, Bool.false_eq_true, if_false, ite_false]
        exact ih hnd' hmemk'

/-- Claim C5: after `ship(msg)`, the multiset union of the receiver lists of
the emitted per-bucket copies equals the restriction of `msg.receivers` to
reachable peers; every reachable receiver occurs in exactly one emitted
copy, and unreachable receivers occur in none. -/
theorem ship_receiver_partition (st : PeerState) (msg : NodeMsg)
    (hsort : List.Pairwise (fun a b : Nat × RoutingEntry => a.1 < b.1) st.tbl)
    (hvalid : ∀ kv ∈ st.tbl, kv.1 ≠ 0)
    (hdists : ∀ kv ∈ st.tbl, ∀ c ∈ kv.2.distances, c.2 < usizeMax) :
    ((((shipSends st msg).map (fun s => s.2.receivers)).flatten : Multiset Nat)
        = (msg.receivers.filter (fun r => reachable st r) : Multiset Nat)) ∧
    (∀ r, reachable st r = true → r ∈ msg.receivers →
      ((shipSends st msg).filter
        (fun s => s.2.receivers.contains r)).length = 1) ∧
    (∀ r, reachable st r = false → ∀ s ∈ shipSends st msg, r ∉ s.2.receivers) := by
  have hknd : (st.tbl.map Prod.fst).Nodup :=
    (List.pairwise_map.mpr hsort).nodup
  refine ⟨?_, ?_, ?_⟩
  · refine Multiset.ext.mpr ?_
    intro a
    rw [Multiset.coe_count, Multiset.coe_count]
    rw [shipSends_receivers, flatten_filter_nonnil, shipBuckets_eq,
      List.map_map]
    have hcomp :
        ((fun e : Nat × Nat × List Nat => e.2.2) ∘
          (fun kv : Nat × RoutingEntry => (kv.1, kv.2.hdl,
            msg.receivers.filter (fun r => shipRoute st r == some kv.1))))
        = fun kv : Nat × RoutingEntry =>
            msg.receivers.filter (fun r => shipRoute st r == some kv.1) := rfl
    rw [hcomp, count_flatten_buckets st msg.receivers a st.tbl hknd]
    cases hra : shipRoute st a with
    | none =>
      have hreach : reachable st a = false := by
        rw [← shipRoute_isSome_iff st a hsort hvalid hdists, hra]
        rfl
      rw [count_filter_neg _ _ _ hreach]
    | some n =>
      have hreach : reachable st a = true := by
        rw [← shipRoute_isSome_iff st a hsort hvalid hdists, hra]
        rfl
      have hmemk : n ∈ st.tbl.map Prod.fst := shipRoute_mem_keys st a n hra
      show (if n ∈ List.map Prod.fst st.tbl then List.count a msg.receivers
        else 0) = _
      rw [if_pos hmemk, List.count_filter hreach]
  · intro r hreach hmem
    have hsome : (shipRoute st r).isSome = true := by
      rw [shipRoute_isSome_iff st r hsort hvalid hdists, hreach]
    cases hra : shipRoute st r with
    | none => rw [hra] at hsome; cases hsome
    | some n =>
      rw [shipSends, shipBuckets_eq]
      have hmemk : n ∈ st.tbl.map Prod.fst := shipRoute_mem_keys st r n hra
      exact copies_with_receiver_one st msg r n hra hmem st.tbl hknd hmemk
  · intro r hreach s hs
    have hsome : (shipRoute st r).isSome = false := by
      rw [shipRoute_isSome_iff st r hsort hvalid hdists, hreach]
    cases hra : shipRoute st r with
    | none => exact not_in_copies st msg r hra s hs
    | some n => rw [hra] at hsome; cases hsome

/-- A small concrete peer state: two direct neighbors (2 and 3), both
reporting distance 2 to peer 9. -/
def peerStW : PeerState := ⟨1, [(2, ⟨7, [(9, 2)]⟩), (3, ⟨8, [(9, 2)]⟩)], 5, [], []⟩

/-- A concrete node message with a direct, an indirect and an unreachable
receiver. -/
def msgW : NodeMsg := ⟨true, "t", 3, [2, 9, 4]⟩

theorem ship_receiver_partition_witness :
    ((((shipSends peerStW msgW).map (fun s => s.2.receivers)).flatten :
        Multiset Nat)
      = (msgW.receivers.filter (fun r => reachable peerStW r) : Multiset Nat)) ∧
    (∀ r, reachable peerStW r = true → r ∈ msgW.receivers →
      ((shipSends peerStW msgW).filter
        (fun s => s.2.receivers.contains r)).length = 1) ∧
    (∀ r, reachable peerStW r = false →
      ∀ s ∈ shipSends peerStW msgW, r ∉ s.2.receivers) :=
  ship_receiver_partition peerStW msgW (by decide) (by decide) (by decide)

/-! ### Publication handling (C1) -/

theorem handlePublication_locals (st : PeerState) (msg : NodeMsg) :
    (handlePublication st msg).locals =
      (if msg.receivers.contains st.selfId then [(msg.isData, msg.topic)]
        else []) := by
  simp only [handlePublication]
  split
  · rfl
  · split <;> rfl

theorem shipSends_empty (st : PeerState) (msg : NodeMsg)
    (h : msg.receivers = []) : shipSends st msg = [] := by
  simp only [shipSends, shipBuckets, h, List.foldl_nil]
  induction st.tbl with
  | nil => rfl
  | cons kv rest ih =>
    simpa [List.map_cons, List.filterMap_cons] using ih

/-- Claim C1 is false on the code; amended: `handle_publication` decrements
the `uint16_t` TTL with wraparound, so a pre-decrement TTL of 0 becomes
65535 and the message is not dropped: content is delivered locally iff
`self` is among the receivers, and the remaining receivers are shipped with
TTL 65535 (`ship` emits nothing only when no receivers remain); the drop
happens exactly when the post-decrement TTL is 0, i.e. pre-decrement TTL 1. -/
theorem handle_publication_ttl_zero (st : PeerState) (msg : NodeMsg)
    (h : msg.ttl = 0) :
    ((handlePublication st msg).locals ≠ [] ↔ st.selfId ∈ msg.receivers) ∧
    (handlePublication st msg).sends = shipSends st
      { msg with
        ttl := 65535
        receivers := msg.receivers.filter (fun r => !(r == st.selfId)) } := by
  constructor
  · rw [handlePublication_locals]
    by_cases hc : st.selfId ∈ msg.receivers
    · have hcb : msg.receivers.contains st.selfId = true := by simpa using hc
      simp [hcb, hc]
    · have hcb : msg.receivers.contains st.selfId = false := by simpa using hc
      simp [hcb, hc]
  · have ht2 : (msg.ttl + 65535) % 65536 = 65535 := by rw [h]
    by_cases hr : msg.receivers.filter (fun r => !(r == st.selfId)) = []
    · simp only [handlePublication, ht2, hr, if_pos rfl]
      exact (shipSends_empty st _ rfl).symm
    · simp only [handlePublication, ht2, hr, if_neg hr]
      norm_num

theorem handle_publication_ttl_zero_witness :
    ((⟨true, "t", 0, [1, 2]⟩ : NodeMsg).ttl = 0) ∧
    ((handlePublication ⟨1, [(2, ⟨7, []⟩)], 5, [], []⟩
        ⟨true, "t", 0, [1, 2]⟩).sends =
      shipSends ⟨1, [(2, ⟨7, []⟩)], 5, [], []⟩
        { (⟨true, "t", 0, [1, 2]⟩ : NodeMsg) with
          ttl := 65535
          receivers := [1, 2].filter (fun r => !(r == (1 : Nat))) }) :=
  ⟨rfl, (handle_publication_ttl_zero ⟨1, [(2, ⟨7, []⟩)], 5, [], []⟩
    ⟨true, "t", 0, [1, 2]⟩ rfl).2⟩

/-- Counterexample to claim C1 as stated: a node message entering
`handle_publication` with TTL 0 (pre-decrement TTL 0) is both delivered
locally and shipped onward, because `--ttl` wraps the `uint16_t` 0 to 65535
and no pre-decrement check exists. -/
theorem handle_publication_ttl_zero_cex :
    (handlePublication ⟨1, [(2, ⟨7, []⟩)], 5, [], []⟩
        ⟨true, "t", 0, [1, 2]⟩).locals ≠ [] ∧
    (handlePublication ⟨1, [(2, ⟨7, []⟩)], 5, [], []⟩
        ⟨true, "t", 0, [1, 2]⟩).sends ≠ [] := by
  decide

/-! ## Core policy (`broker::detail::core_policy`)

The stream distribution policy.  Outbound managers (`workers()`, `stores()`,
`peers()`) are modelled by the lists of messages pushed into them; the
central-buffer flushes of `before_handle_batch`/`after_handle_batch` are
recorded in `flushLog` together with the `active_sender` in effect at flush
time.  Handles are `Nat`.  Only peer batches are modelled: the claims below
are about the `peer_trait::batch` branch of `handle_batch` (the
worker/store/variant branches are separate `try_handle` dispatches). -/

/-- `node_message` as the policy sees it: data or command content with its
topic, a `uint16_t` TTL, and (unused by the policy) receivers. -/
structure CoreMsg where
  isData : Bool
  topic : String
  ttl : Nat
  receivers : List Nat
deriving DecidableEq

structure CoreOptions where
  forward : Bool
  ttl : Nat
deriving DecidableEq

structure CoreState where
  blockedPeers : List Nat
  blockedMsgs : List (Nat × List (List CoreMsg))
  peerToIpath : List (Nat × Nat)
  activeSender : Option Nat
  flushLog : List (Option Nat)
  workersOut : List CoreMsg
  storesOut : List CoreMsg
  peersOut : List CoreMsg
  numWorkers : Nat
  numStores : Nat
  options : CoreOptions
  cloneSuffix : String
deriving DecidableEq

/-- The file-static `ends_with(s, ending)`: `false` when `ending` is longer
than `s`, otherwise compare from the back (`std::equal` on reverse
iterators). -/
def endsWith (s e : String) : Bool :=
  if e.length > s.length then false
  else (s.data.reverse.take e.data.length) == e.data.reverse

/-- The per-message body of the peer-batch loop in `handle_batch`: dispatch
content to local workers or stores (when such outbound paths exist), then,
unless forwarding is disabled or the topic carries the clone suffix, the
wrapping `uint16_t` decrement of the TTL; a decremented TTL of 0 drops,
otherwise the message goes to the peers manager. -/
def processMsg (st : CoreState) (m : CoreMsg) : CoreState :=
  let st1 :=
    if m.isData then
      (if st.numWorkers > 0 then
        { st with workersOut := st.workersOut ++ [m] } else st)
    else
      (if st.numStores > 0 then
        { st with storesOut := st.storesOut ++ [m] } else st)
  if !st.options.forward then st1
  else if endsWith m.topic st.cloneSuffix then st1
  else
    let t2 := (m.ttl + 65535) % 65536
    if t2 = 0 then st1
    else { st1 with peersOut := st1.peersOut ++ [{ m with ttl := t2 }] }

/-- The `peer_trait::batch` branch of `core_policy::handle_batch`: a batch
from a blocked peer is appended whole to `blocked_msgs[h]` and nothing else
happens; otherwise every message runs through `processMsg`. -/
def handleBatch (st : CoreState) (h : Nat) (xs : List CoreMsg) : CoreState :=
  if st.blockedPeers.contains h then
    { st with blockedMsgs :=
        aupdate st.blockedMsgs h (((List.lookup h st.blockedMsgs).getD []) ++ [xs]) }
  else xs.foldl processMsg st

/-- `before_handle_batch`: reset the selector's `active_sender`, flush, then
set `active_sender` to the inbound handle. -/
def beforeHandleBatch (st : CoreState) (h : Nat) : CoreState :=
  let st1 := { st with activeSender := none }
  let st2 := { st1 with flushLog := st1.flushLog ++ [st1.activeSender] }
  { st2 with activeSender := some h }

/-- `after_handle_batch`: flush while the sender filter is still active,
then clear `active_sender`. -/
def afterHandleBatch (st : CoreState) : CoreState :=
  let st1 := { st with flushLog := st.flushLog ++ [st.activeSender] }
  { st1 with activeSender := none }

/-- `core_policy::block_peer`: `std::set` insertion. -/
def blockPeer (st : CoreState) (h : Nat) : CoreState :=
  if st.blockedPeers.contains h then st
  else { st with blockedPeers := st.blockedPeers ++ [h] }

/-- `core_policy::unblock_peer`: erase from `blocked_peers`; when buffered
batches exist, either discard them (inbound slot gone) or replay each one
through `before_handle_batch` / `handle_batch` / `after_handle_batch`,
erasing the buffer at the end. -/
def unblockPeer (st : CoreState) (h : Nat) : CoreState :=
  let st1 := { st with blockedPeers := st.blockedPeers.filter (fun x => !(x == h)) }
  match List.lookup h st1.blockedMsgs with
  | none => st1
  | some batches =>
    match List.lookup h st1.peerToIpath with
    | none => { st1 with blockedMsgs := aerase st1.blockedMsgs h }
    | some _slot =>
      let st2 := batches.foldl
        (fun s b => afterHandleBatch (handleBatch (beforeHandleBatch s h) h b)) st1
      { st2 with blockedMsgs := aerase st2.blockedMsgs h }

/-- The pipeline a batch goes through when it arrives live and unblocked:
the stream machinery calls `before_handle_batch`, then `handle_batch`
(which, for an unblocked peer, folds `processMsg`), then
`after_handle_batch`. -/
def liveDelivery (h : Nat) (s : CoreState) (b : List CoreMsg) : CoreState :=
  afterHandleBatch (b.foldl processMsg (beforeHandleBatch s h))

/-! ### Core-policy claims (C6, C7) -/

theorem processMsg_blockedPeers (s : CoreState) (m : CoreMsg) :
    (processMsg s m).blockedPeers = s.blockedPeers := by
  have h1 : (if m.isData then
      (if s.numWorkers > 0 then
        { s with workersOut := s.workersOut ++ [m] } else s)
    else
      (if s.numStores > 0 then
        { s with storesOut := s.storesOut ++ [m] } else s)).blockedPeers
      = s.blockedPeers := by
    split
    · split <;> rfl
    · split <;> rfl
  unfold processMsg
  simp only []
  split
  · exact h1
  · split
    · exact h1
    · split
      · exact h1
      · exact h1

theorem foldl_processMsg_blockedPeers (xs : List CoreMsg) :
    ∀ s : CoreState, (xs.foldl processMsg s).blockedPeers = s.blockedPeers := by
  induction xs with
  | nil => intro s; rfl
  | cons m rest ih =>
    intro s
    rw [List.foldl_cons, ih, processMsg_blockedPeers]

theorem liveDelivery_blockedPeers (h : Nat) (s : CoreState)
    (b : List CoreMsg) : (liveDelivery h s b).blockedPeers = s.blockedPeers := by
  rw [liveDelivery]
  show (b.foldl processMsg (beforeHandleBatch s h)).blockedPeers = _
  rw [foldl_processMsg_blockedPeers]
  rfl

theorem contains_filter_self (l : List Nat) (h : Nat) :
    (l.filter (fun x => !(x == h))).contains h = false := by
  rw [Bool.eq_false_iff]
  intro hc
  have hmem : h ∈ l.filter (fun x => !(x == h)) := by simpa using hc
  have := (List.mem_filter.mp hmem).2
  simp at this

theorem handleBatch_unblocked (s : CoreState) (h : Nat) (b : List CoreMsg)
    (hb : s.blockedPeers.contains h = false) :
    handleBatch s h b = b.foldl processMsg s := by
  rw [handleBatch, hb]
  simp

theorem fold_replay (h : Nat) (batches : List (List CoreMsg)) :
    ∀ s : CoreState, s.blockedPeers.contains h = false →
      batches.foldl
        (fun s b => afterHandleBatch (handleBatch (beforeHandleBatch s h) h b)) s
      = batches.foldl (liveDelivery h) s := by
  induction batches with
  | nil => intro s _; rfl
  | cons b rest ih =>
    intro s hb
    rw [List.foldl_cons, List.foldl_cons]
    have hb' : (beforeHandleBatch s h).blockedPeers.contains h = false := hb
    rw [handleBatch_unblocked _ _ _ hb']
    have hstep : afterHandleBatch (b.foldl processMsg (beforeHandleBatch s h))
        = liveDelivery h s b := rfl
    rw [hstep]
    exact ih (liveDelivery h s b) (by rw [liveDelivery_blockedPeers]; exact hb)

/-- Claim C7: a peer batch from a blocked handle is appended whole to
`blocked_msgs[h]` and has no other effect; `unblock_peer` removes the handle
from `blocked_peers` and, when buffered batches exist, discards them if the
inbound slot is gone, otherwise replays each buffered batch in arrival order
through the normal before/handle/after sequence — which, since the handle is
no longer blocked, has exactly the effect of live unblocked delivery
(`liveDelivery`). -/
theorem block_buffer_replay (st : CoreState) (h : Nat) (xs : List CoreMsg)
    (batches : List (List CoreMsg)) :
    (st.blockedPeers.contains h = true →
      (handleBatch st h xs).workersOut = st.workersOut ∧
      (handleBatch st h xs).storesOut = st.storesOut ∧
      (handleBatch st h xs).peersOut = st.peersOut ∧
      (handleBatch st h xs).blockedPeers = st.blockedPeers ∧
      (handleBatch st h xs).flushLog = st.flushLog ∧
      List.lookup h (handleBatch st h xs).blockedMsgs
        = some ((List.lookup h st.blockedMsgs).getD [] ++ [xs]) ∧
      (∀ h', h' ≠ h → List.lookup h' (handleBatch st h xs).blockedMsgs
        = List.lookup h' st.blockedMsgs)) ∧
    (List.lookup h st.blockedMsgs = some batches →
      (List.lookup h st.peerToIpath = none →
        unblockPeer st h
          = { st with
              blockedPeers := st.blockedPeers.filter (fun x => !(x == h))
              blockedMsgs := aerase st.blockedMsgs h }) ∧
      (∀ slot, List.lookup h st.peerToIpath = some slot →
        unblockPeer st h
          = { batches.foldl (liveDelivery h)
                { st with blockedPeers :=
                    st.blockedPeers.filter (fun x => !(x == h)) } with
              blockedMsgs := aerase
                (batches.foldl (liveDelivery h)
                  { st with blockedPeers :=
                      st.blockedPeers.filter (fun x => !(x == h)) }).blockedMsgs
                h })) := by
  constructor
  · intro hb
    rw [handleBatch, hb]
    simp only [if_true, ite_true]
    refine ⟨trivial, trivial, trivial, trivial, trivial, ?_, ?_⟩
    · exact aupdate_lookup _ _ _
    · intro h' hne
      exact aupdate_lookup_ne _ _ _ _ hne
  · intro hbm
    constructor
    · intro hip
      rw [unblockPeer]
      simp only [hbm, hip]
    · intro slot hip
      rw [unblockPeer]
      simp only [hbm, hip]
      rw [fold_replay h batches _ (contains_filter_self st.blockedPeers h)]

theorem block_buffer_replay_witness :
    ((⟨[3], [(3, [[⟨true, "a", 4, []⟩]])], [(3, 1)], none, [], [], [], [], 1, 0,
        ⟨true, 20⟩, "/c"⟩ : CoreState).blockedPeers.contains 3 = true) ∧
    (List.lookup 3 (⟨[3], [(3, [[⟨true, "a", 4, []⟩]])], [(3, 1)], none, [],
        [], [], [], 1, 0, ⟨true, 20⟩, "/c"⟩ : CoreState).blockedMsgs
      = some [[⟨true, "a", 4, []⟩]]) ∧
    List.lookup 3
      (handleBatch (⟨[3], [(3, [[⟨true, "a", 4, []⟩]])], [(3, 1)], none, [],
        [], [], [], 1, 0, ⟨true, 20⟩, "/c"⟩ : CoreState) 3
        [⟨false, "b", 2, []⟩]).blockedMsgs
      = some ([[⟨true, "a", 4, []⟩]] ++ [[⟨false, "b", 2, []⟩]]) := by
  refine ⟨by decide, by decide, ?_⟩
  have happ := (block_buffer_replay
    ⟨[3], [(3, [[⟨true, "a", 4, []⟩]])], [(3, 1)], none, [], [], [], [], 1, 0,
      ⟨true, 20⟩, "/c"⟩ 3 [⟨false, "b", 2, []⟩] [[⟨true, "a", 4, []⟩]]).1
    (by decide)
  exact happ.2.2.2.2.2.1

/-- Counterexample to claim C6 as stated: a node message of an unblocked
inbound peer batch with TTL 0 on entry is pushed to the peers manager (the
`uint16_t` decrement wraps 0 to 65535), so it is forwarded onward. -/
theorem core_ttl_zero_cex :
    (handleBatch (⟨[], [], [], none, [], [], [], [], 1, 0, ⟨true, 20⟩,
        "/clone"⟩ : CoreState) 9 [⟨true, "a", 0, [1]⟩]).workersOut ≠ [] ∧
    (handleBatch (⟨[], [], [], none, [], [], [], [], 1, 0, ⟨true, 20⟩,
        "/clone"⟩ : CoreState) 9 [⟨true, "a", 0, [1]⟩]).peersOut ≠ [] := by
  decide

/-- Claim C6 is false on the code; amended: a node message of an unblocked
inbound peer batch whose TTL is 0 on entry is delivered locally (its content
pushed to workers when it is data and worker paths exist), and — because the
`uint16_t` decrement wraps 0 to 65535 — it IS forwarded to peers with TTL
65535 whenever forwarding is enabled and the topic lacks the clone suffix;
only a message whose TTL is 1 on entry is delivered locally but not
forwarded. -/
theorem core_ttl_zero_forwarded (cs : CoreState) (h : Nat) (m : CoreMsg)
    (hb : cs.blockedPeers.contains h = false)
    (httl : m.ttl = 0) (hdata : m.isData = true)
    (hfwd : cs.options.forward = true)
    (hclone : endsWith m.topic cs.cloneSuffix = false)
    (hw : cs.numWorkers > 0) :
    (handleBatch cs h [m]).workersOut = cs.workersOut ++ [m] ∧
    (handleBatch cs h [m]).peersOut = cs.peersOut ++ [{ m with ttl := 65535 }] ∧
    (handleBatch cs h [m]).storesOut = cs.storesOut := by
  rw [handleBatch_unblocked cs h [m] hb, List.foldl_cons, List.foldl_nil]
  have ht2 : (m.ttl + 65535) % 65536 = 65535 := by rw [httl]
  unfold processMsg
  rw [hdata]
  simp only [if_true, ite_true, if_pos hw, hfwd, Bool.not_true,
    Bool.false_eq_true, if_false, ite_false, hclone, ht2]
  refine ⟨rfl, ?_, rfl⟩
  norm_num

theorem core_ttl_zero_forwarded_witness :
    ((⟨[], [], [], none, [], [], [], [], 1, 0, ⟨true, 20⟩, "/clone"⟩ :
      CoreState).blockedPeers.contains 9 = false) ∧
    (handleBatch (⟨[], [], [], none, [], [], [], [], 1, 0, ⟨true, 20⟩,
        "/clone"⟩ : CoreState) 9 [⟨true, "a", 0, [1]⟩]).peersOut
      = [] ++ [⟨true, "a", 65535, [1]⟩] :=
  ⟨rfl, (core_ttl_zero_forwarded
    ⟨[], [], [], none, [], [], [], [], 1, 0, ⟨true, 20⟩, "/clone"⟩ 9
    ⟨true, "a", 0, [1]⟩ rfl rfl rfl rfl (by decide) (by decide)).2.1⟩

end BrokerSpec
